import Mathlib

/-!
Verification development for the `slack-to-md` converter.

The Python sources (`models.py`, `parser.py`, `formatter.py`) are shallowly
embedded below.  JSON records are embedded post-deserialization: a raw record
is a structure of `Option` fields (a `none` field is a key absent from the
JSON object); `dict.get(k, default)` becomes `Option.getD`, a direct
subscript `d[k]` becomes a fallible match whose `none` outcome models the
`KeyError`.  Python's in-place mutation of the caller's `users` dict is
embedded as explicit state passing over an association list, and the
`list.sort` call (a stable sort) is embedded with a stable sort on the same
keys.  Fallible paths return `Option`.
-/

namespace SlackToMd

/-- Backtick character (code-span delimiter), by code point. -/
def btChar : Char := Char.ofNat 96

/-! ## Entity model (`models.py`) -/

/-- `User` dataclass from `models.py`. -/
structure User where
  id : String
  name : String
  display_name : String
  real_name : String
  deriving DecidableEq, Repr

/-- `User.label`: `display_name or real_name or name` (first non-empty). -/
def User.label (u : User) : String :=
  if u.display_name ≠ "" then u.display_name
  else if u.real_name ≠ "" then u.real_name
  else u.name

/-- `Attachment` dataclass from `models.py`. -/
structure Attachment where
  title : String
  fallback : String
  text : String
  from_url : String
  deriving DecidableEq, Repr

/-- `File` dataclass from `models.py`. -/
structure File where
  name : String
  url_private : String
  permalink : String
  deriving DecidableEq, Repr

/-- `Channel` dataclass from `models.py`. -/
structure Channel where
  id : String
  name : String
  topic : String
  purpose : String
  deriving DecidableEq, Repr

/-- `Message` dataclass from `models.py`; `replies` makes it recursive. -/
inductive Message : Type where
  | mk (user text ts thread_ts : String) (replies : List Message)
      (attachments : List Attachment) (files : List File) (subtype : String)

def Message.user : Message → String
  | .mk u _ _ _ _ _ _ _ => u

def Message.text : Message → String
  | .mk _ t _ _ _ _ _ _ => t

def Message.ts : Message → String
  | .mk _ _ ts _ _ _ _ _ => ts

def Message.thread_ts : Message → String
  | .mk _ _ _ th _ _ _ _ => th

def Message.replies : Message → List Message
  | .mk _ _ _ _ r _ _ _ => r

def Message.attachments : Message → List Attachment
  | .mk _ _ _ _ _ a _ _ => a

def Message.files : Message → List File
  | .mk _ _ _ _ _ _ f _ => f

def Message.subtype : Message → String
  | .mk _ _ _ _ _ _ _ s => s

@[simp] theorem Message.user_mk (u t ts th r a f s) :
    (Message.mk u t ts th r a f s).user = u := rfl

@[simp] theorem Message.text_mk (u t ts th r a f s) :
    (Message.mk u t ts th r a f s).text = t := rfl

@[simp] theorem Message.ts_mk (u t ts th r a f s) :
    (Message.mk u t ts th r a f s).ts = ts := rfl

@[simp] theorem Message.thread_ts_mk (u t ts th r a f s) :
    (Message.mk u t ts th r a f s).thread_ts = th := rfl

@[simp] theorem Message.replies_mk (u t ts th r a f s) :
    (Message.mk u t ts th r a f s).replies = r := rfl

@[simp] theorem Message.attachments_mk (u t ts th r a f s) :
    (Message.mk u t ts th r a f s).attachments = a := rfl

@[simp] theorem Message.files_mk (u t ts th r a f s) :
    (Message.mk u t ts th r a f s).files = f := rfl

@[simp] theorem Message.subtype_mk (u t ts th r a f s) :
    (Message.mk u t ts th r a f s).subtype = s := rfl

/-- The message with its `replies` field reset to `[]`; identifies the
parsed record underlying an assembled top-level message. -/
def Message.base : Message → Message
  | .mk u t ts th _ a f s => .mk u t ts th [] a f s

@[simp] theorem Message.base_mk (u t ts th r a f s) :
    (Message.mk u t ts th r a f s).base = .mk u t ts th [] a f s := rfl

@[simp] theorem Message.ts_base (m : Message) : m.base.ts = m.ts := by
  cases m <;> rfl

@[simp] theorem Message.thread_ts_base (m : Message) :
    m.base.thread_ts = m.thread_ts := by
  cases m <;> rfl

@[simp] theorem Message.replies_base (m : Message) : m.base.replies = [] := by
  cases m <;> rfl

theorem Message.base_eq_self {m : Message} (h : m.replies = []) : m.base = m := by
  cases m with
  | mk u t ts th r a f s => simp at h; simp [h]

/-- `parent.replies.append(msg)` from the thread-assembly loop. -/
def Message.addReply (p r : Message) : Message :=
  match p with
  | .mk u t ts th rs a f s => .mk u t ts th (rs ++ [r]) a f s

@[simp] theorem Message.ts_addReply (p r : Message) : (p.addReply r).ts = p.ts := by
  cases p <;> rfl

@[simp] theorem Message.thread_ts_addReply (p r : Message) :
    (p.addReply r).thread_ts = p.thread_ts := by
  cases p <;> rfl

@[simp] theorem Message.replies_addReply (p r : Message) :
    (p.addReply r).replies = p.replies ++ [r] := by
  cases p <;> rfl

@[simp] theorem Message.base_addReply (p r : Message) : (p.addReply r).base = p.base := by
  cases p <;> rfl

/-- `msg.thread_ts and msg.thread_ts != msg.ts` (string truthiness). -/
def Message.isReply (m : Message) : Bool :=
  m.thread_ts ≠ "" && m.thread_ts ≠ m.ts

@[simp] theorem Message.isReply_base (m : Message) : m.base.isReply = m.isReply := by
  cases m <;> rfl

@[simp] theorem Message.isReply_addReply (p r : Message) :
    (p.addReply r).isReply = p.isReply := by
  cases p <;> rfl

/-! ## Raw (deserialized JSON) records, `parser.py` input shapes -/

/-- A record of the users-metadata file: the fields `load_users` reads.
`profile_display_name` is `some` exactly when `u.get("profile", {})` holds a
`display_name` key (an absent or empty profile gives the same `""` default,
so both embed as `none`). -/
structure RawUser where
  id : Option String
  name : Option String
  real_name : Option String
  profile_display_name : Option String
  deriving DecidableEq, Repr

/-- A record of the channels-metadata file: the fields `load_channels` reads;
`topic_value` embeds `c.get("topic", {}).get("value", "")` likewise. -/
structure RawChannel where
  id : Option String
  name : Option String
  topic_value : Option String
  purpose_value : Option String
  deriving DecidableEq, Repr

/-- One element of a message record's `attachments` array. -/
structure RawAttachment where
  title : Option String
  fallback : Option String
  text : Option String
  from_url : Option String
  deriving DecidableEq, Repr

/-- One element of a message record's `files` array. -/
structure RawFile where
  name : Option String
  url_private : Option String
  permalink : Option String
  deriving DecidableEq, Repr

/-- The `user_profile` sub-object of a raw message record.  A `none`
`RawMessage.user_profile` covers both an absent key and an empty (falsy)
profile dict, which the backfill code treats identically. -/
structure RawProfile where
  name : Option String
  display_name : Option String
  real_name : Option String
  deriving DecidableEq, Repr

/-- A raw per-day message record: the fields `_parse_message` and the
backfill loop read. -/
structure RawMessage where
  user : Option String
  text : Option String
  ts : Option String
  thread_ts : Option String
  subtype : Option String
  attachments : List RawAttachment
  files : List RawFile
  user_profile : Option RawProfile
  deriving DecidableEq, Repr

/-- One record of `load_users`'s loop body.  `u["id"]` is a direct subscript:
a missing `id` raises `KeyError`, embedded as `none`. -/
def parseUser (u : RawUser) : Option (String × User) :=
  match u.id with
  | none => none
  | some i =>
      some (i, { id := i, name := u.name.getD "",
                 display_name := u.profile_display_name.getD "",
                 real_name := u.real_name.getD "" })

/-- `load_users` over the records of the users file, as the (id, User)
pairs inserted into the result dict, in file order; the loop raises
(returns `none`) at the first record without an `id`. -/
def loadUsers : List RawUser → Option (List (String × User))
  | [] => some []
  | u :: rest =>
      match parseUser u with
      | none => none
      | some p => (loadUsers rest).map (p :: ·)

/-- One record of `load_channels`'s loop body; `c["id"]` and `c["name"]` are
direct subscripts (KeyError when missing). -/
def parseChannel (c : RawChannel) : Option Channel :=
  match c.id, c.name with
  | some i, some n =>
      some { id := i, name := n, topic := c.topic_value.getD "",
             purpose := c.purpose_value.getD "" }
  | _, _ => none

/-- `load_channels` over the records of the channels file; the loop raises
(returns `none`) at the first record without an `id` or a `name`. -/
def loadChannels : List RawChannel → Option (List Channel)
  | [] => some []
  | c :: rest =>
      match parseChannel c with
      | none => none
      | some ch => (loadChannels rest).map (ch :: ·)

/-- `_parse_message`: every field access is `.get` with a default, so
parsing is total. -/
def parseMessage (raw : RawMessage) : Message :=
  .mk (raw.user.getD "") (raw.text.getD "") (raw.ts.getD "")
    (raw.thread_ts.getD "") []
    (raw.attachments.map fun a =>
      { title := a.title.getD "", fallback := a.fallback.getD "",
        text := a.text.getD "", from_url := a.from_url.getD "" })
    (raw.files.map fun f =>
      { name := f.name.getD "", url_private := f.url_private.getD "",
        permalink := f.permalink.getD "" })
    (raw.subtype.getD "")

/-- The users dict, embedded as an association list; lookup finds the first
binding, and the backfill only ever appends fresh keys. -/
abbrev Users := List (String × User)

/-- The user-backfill body of `load_channel_messages`'s parse loop:
`if uid and uid not in users: profile = raw.get("user_profile", {});
if profile: users[uid] = User(...)`. -/
def backfillStep (users : Users) (raw : RawMessage) : Users :=
  let uid := raw.user.getD ""
  if uid ≠ "" ∧ (List.lookup uid users) = none then
    match raw.user_profile with
    | some p =>
        users ++ [(uid, { id := uid, name := p.name.getD "",
                          display_name := p.display_name.getD "",
                          real_name := p.real_name.getD "" })]
    | none => users
  else users

/-- The backfill side effect over all raw records, in scan order. -/
def backfillAll (raws : List RawMessage) (users : Users) : Users :=
  raws.foldl backfillStep users

/-! ## Timestamps

`float(ts)` is embedded for decimal literals `[+-]?digits[.digits]` (the
form Slack timestamps take), returned exactly as a scaled integer
`(mantissa, fracDigits)` denoting `mantissa / 10 ^ fracDigits`; strings
outside this grammar embed as `none` (Python raises `ValueError`). -/

/-- Value of a digit run. -/
def digitsVal (l : List Char) : Nat :=
  l.foldl (fun a c => a * 10 + (c.toNat - 48)) 0

/-- Parse an optionally-signed decimal literal from a char list. -/
def parseDecimal (l : List Char) : Option (Int × Nat) :=
  let withSign : Int → List Char → Option (Int × Nat) := fun sign body =>
    let intPart := body.takeWhile Char.isDigit
    let rest := body.dropWhile Char.isDigit
    match rest with
    | [] =>
        if intPart.isEmpty then none
        else some (sign * (digitsVal intPart : Int), 0)
    | '.' :: frac =>
        if (intPart.isEmpty ∧ frac.isEmpty) ∨ ¬(frac.all Char.isDigit) then none
        else
          some (sign * ((digitsVal intPart * 10 ^ frac.length + digitsVal frac : Nat) : Int),
            frac.length)
    | _ => none
  match l with
  | '+' :: body => withSign 1 body
  | '-' :: body => withSign (-1) body
  | body => withSign 1 body

/-- `float(ts)` on a timestamp string. -/
def parseTs (s : String) : Option (Int × Nat) :=
  parseDecimal s.data

/-- `round(value * 10^6)` to whole microseconds, half to even, as
`datetime.fromtimestamp` does before splitting seconds. -/
def roundUsec (num : Int) (fracDigits : Nat) : Int :=
  let q : Int := num * 1000000
  let den : Int := (10 : Int) ^ fracDigits
  let n := q.fdiv den
  let r := q.emod den
  if 2 * r > den then n + 1
  else if 2 * r < den then n
  else if n % 2 = 0 then n else n + 1

/-- Civil date (year, month, day) from days since 1970-01-01 (proleptic
Gregorian, Hinnant's algorithm), as `datetime` computes it in UTC. -/
def civilFromDays (days : Int) : Int × Int × Int :=
  let z := days + 719468
  let era := z.fdiv 146097
  let doe := z - era * 146097
  let yoe := (doe - doe.fdiv 1460 + doe.fdiv 36524 - doe.fdiv 146096).fdiv 365
  let y := yoe + era * 400
  let doy := doe - (365 * yoe + yoe.fdiv 4 - yoe.fdiv 100)
  let mp := (5 * doy + 2).fdiv 153
  let d := doy - (153 * mp + 2).fdiv 5 + 1
  let m := mp + (if mp < 10 then 3 else -9)
  (y + (if m ≤ 2 then 1 else 0), m, d)

/-- Two-digit zero-padded decimal rendering. -/
def pad2 (n : Nat) : String :=
  if n < 10 then "0" ++ toString n else toString n

/-- Four-digit zero-padded decimal rendering (`%Y` for in-range years). -/
def pad4 (n : Nat) : String :=
  if n < 10 then "000" ++ toString n
  else if n < 100 then "00" ++ toString n
  else if n < 1000 then "0" ++ toString n
  else toString n

/-- `s.lstrip("0")`. -/
def lstripZeros (s : String) : String :=
  ⟨s.data.dropWhile (· = '0')⟩

/-- The UTC clock fields of an epoch value: days since epoch and
(hour, minute) of day. -/
def clockOfUsec (usec : Int) : Int × Nat × Nat :=
  let secs := usec.fdiv 1000000
  let days := secs.fdiv 86400
  let sod := (secs.emod 86400).toNat
  (days, sod / 3600, sod % 3600 / 60)

/-- `_format_timestamp` (`formatter.py`).  The source line
`except ValueError, OSError:` is a Python 3 `SyntaxError`; this definition
embeds the evident intent `except (ValueError, OSError):`, with `none` from
parsing and an out-of-range civil year standing for the caught exceptions. -/
def formatTimestamp (ts : String) : String :=
  match parseTs ts with
  | none => ts
  | some (num, k) =>
      let usec := roundUsec num k
      let (days, h24, mi) := clockOfUsec usec
      let (y, _, _) := civilFromDays days
      if y < 1 ∨ 9999 < y then ts
      else
        let h12 := if h24 % 12 = 0 then 12 else h24 % 12
        lstripZeros (pad2 h12 ++ ":" ++ pad2 mi ++ " " ++ if h24 < 12 then "AM" else "PM")

/-- `_format_date` (`formatter.py`), embedded like `formatTimestamp` but
falling back to the empty string. -/
def formatDate (ts : String) : String :=
  match parseTs ts with
  | none => ""
  | some (num, k) =>
      let usec := roundUsec num k
      let (days, _, _) := clockOfUsec usec
      let (y, m, d) := civilFromDays days
      if y < 1 ∨ 9999 < y then ""
      else pad4 y.toNat ++ "-" ++ pad2 m.toNat ++ "-" ++ pad2 d.toNat

/-! ## Sorting and thread assembly (`load_channel_messages`) -/

/-- The sort key of one message: `float(m.ts) if m.ts else 0.0`.
`none` is the `ValueError` float(...) raises on a non-empty unparseable
timestamp. -/
def sortKey? (m : Message) : Option (Int × Nat) :=
  if m.ts = "" then some (0, 0) else parseTs m.ts

/-- The sort key with the impossible-after-guard `none` defaulted. -/
def keyD (m : Message) : Int × Nat :=
  (sortKey? m).getD (0, 0)

/-- Numeric order on scaled-integer keys: `a.1/10^a.2 ≤ b.1/10^b.2` by
cross multiplication. -/
def keyLe (a b : Int × Nat) : Prop :=
  a.1 * (10 : Int) ^ b.2 ≤ b.1 * (10 : Int) ^ a.2

instance : DecidableRel keyLe := fun a b => by
  unfold keyLe; infer_instance

/-- Message order used by the sort: ascending numeric timestamp key. -/
def msgLe (a b : Message) : Prop :=
  keyLe (keyD a) (keyD b)

instance : DecidableRel msgLe := fun a b => by
  unfold msgLe; infer_instance

theorem keyLe_total (a b : Int × Nat) : keyLe a b ∨ keyLe b a := by
  unfold keyLe
  exact le_total _ _

theorem keyLe_trans {a b c : Int × Nat} (h₁ : keyLe a b) (h₂ : keyLe b c) :
    keyLe a c := by
  unfold keyLe at *
  have hb : (0 : Int) < 10 ^ b.2 := by positivity
  have h₁' := mul_le_mul_of_nonneg_right h₁ (by positivity : (0 : Int) ≤ 10 ^ c.2)
  have h₂' := mul_le_mul_of_nonneg_right h₂ (by positivity : (0 : Int) ≤ 10 ^ a.2)
  have hchain : a.1 * 10 ^ c.2 * 10 ^ b.2 ≤ c.1 * 10 ^ a.2 * 10 ^ b.2 := by
    calc a.1 * 10 ^ c.2 * 10 ^ b.2 = a.1 * 10 ^ b.2 * 10 ^ c.2 := by ring
    _ ≤ b.1 * 10 ^ a.2 * 10 ^ c.2 := h₁'
    _ = b.1 * 10 ^ c.2 * 10 ^ a.2 := by ring
    _ ≤ c.1 * 10 ^ b.2 * 10 ^ a.2 := h₂'
    _ = c.1 * 10 ^ a.2 * 10 ^ b.2 := by ring
  exact le_of_mul_le_mul_right hchain hb

instance : IsTotal Message msgLe := ⟨fun a b => keyLe_total (keyD a) (keyD b)⟩

instance : IsTrans Message msgLe := ⟨fun _ _ _ => keyLe_trans⟩

/-- `all_messages.sort(key=lambda m: float(m.ts) if m.ts else 0.0)`.
Computing a key raises `ValueError` on a non-empty unparseable timestamp,
so the whole sort is fallible; on success Python's stable Timsort is
embedded by a stable sort (insertion sort) on the same keys. -/
def sortMessages (msgs : List Message) : Option (List Message) :=
  if msgs.all (fun m => (sortKey? m).isSome) then
    some (msgs.insertionSort msgLe)
  else none

/-- In-place update of the list element at an index (the registered parent
object mutated through the `parents` dict). -/
def modifyAt : List α → Nat → (α → α) → List α
  | [], _, _ => []
  | a :: l, 0, f => f a :: l
  | a :: l, n + 1, f => a :: modifyAt l n f

@[simp] theorem length_modifyAt (l : List α) (n : Nat) (f : α → α) :
    (modifyAt l n f).length = l.length := by
  induction l generalizing n with
  | nil => rfl
  | cons a l ih => cases n with
    | zero => rfl
    | succ n => simp [modifyAt, ih]

/-- Assembly state: the `top_level` list so far and the `parents` dict as an
association list from a timestamp to the index of the registered parent in
`top_level` (prepending models dict-overwrite: lookup finds the latest). -/
abbrev AsmState := List Message × List (String × Nat)

/-- One iteration of the thread-assembly loop. -/
def assembleStep (s : AsmState) (m : Message) : AsmState :=
  if m.isReply then
    match List.lookup m.thread_ts s.2 with
    | some i => (modifyAt s.1 i (·.addReply m), s.2)
    | none => (s.1 ++ [m], s.2)
  else (s.1 ++ [m], (m.ts, s.1.length) :: s.2)

/-- The thread-assembly pass over the sorted messages. -/
def assemble (msgs : List Message) : List Message :=
  (msgs.foldl assembleStep ([], [])).1

/-- `load_channel_messages`, from the parsed day-file records (concatenated
in ascending file order) and the caller's users table onward: backfill the
users table, parse every record, sort, assemble threads.  The first
component is `none` when the sort raises; the second is the users table
after the backfill side effect (which precedes the sort). -/
def loadChannelMessages (raws : List RawMessage) (users : Users) :
    Option (List Message) × Users :=
  ((sortMessages (raws.map parseMessage)).map assemble, backfillAll raws users)

/-- A reply's parent was registered earlier in the pass: some message
strictly before it in the processed order is classified top-level and has
its timestamp. -/
def parentBefore (u : List Message) (m : Message) : Prop :=
  ∃ p ∈ u, p.isReply = false ∧ p.ts = m.thread_ts

/-- All parsed records together with every reply nested under a top-level
message: each top-level entry contributes its underlying record (`base`)
and its collected replies. -/
def flattenTop : List Message → List Message
  | [] => []
  | p :: l => p.base :: (p.replies ++ flattenTop l)

@[simp] theorem flattenTop_nil : flattenTop [] = [] := rfl

@[simp] theorem flattenTop_cons (p : Message) (l : List Message) :
    flattenTop (p :: l) = p.base :: (p.replies ++ flattenTop l) := rfl

theorem flattenTop_append (l₁ l₂ : List Message) :
    flattenTop (l₁ ++ l₂) = flattenTop l₁ ++ flattenTop l₂ := by
  induction l₁ with
  | nil => simp
  | cons p l ih => simp [flattenTop, ih]

theorem length_flattenTop (l : List Message) :
    (flattenTop l).length = l.length + (l.map (fun p => p.replies.length)).sum := by
  induction l with
  | nil => simp
  | cons p l ih => simp [flattenTop, ih]; omega

theorem base_mem_flattenTop {p : Message} {l : List Message} (h : p ∈ l) :
    p.base ∈ flattenTop l := by
  induction l with
  | nil => cases h
  | cons q l ih =>
      rcases List.mem_cons.mp h with rfl | h
      · exact List.mem_cons_self _ _
      · exact List.mem_cons_of_mem _ (List.mem_append_right _ (ih h))

theorem mem_flattenTop {x : Message} {l : List Message} (h : x ∈ flattenTop l) :
    ∃ p ∈ l, x = p.base ∨ x ∈ p.replies := by
  induction l with
  | nil => cases h
  | cons q l ih =>
      rcases List.mem_cons.mp h with rfl | h
      · exact ⟨q, List.mem_cons_self _ _, Or.inl rfl⟩
      · rcases List.mem_append.mp h with h | h
        · exact ⟨q, List.mem_cons_self _ _, Or.inr h⟩
        · obtain ⟨p, hp, hx⟩ := ih h
          exact ⟨p, List.mem_cons_of_mem _ hp, hx⟩

theorem get_modifyAt_eq (l : List α) (i : Nat) (f : α → α) (h : i < l.length)
    (h₂ : i < (modifyAt l i f).length) :
    (modifyAt l i f).get ⟨i, h₂⟩ = f (l.get ⟨i, h⟩) := by
  induction l generalizing i with
  | nil => cases h
  | cons a l ih =>
      cases i with
      | zero => rfl
      | succ i => exact ih i (Nat.lt_of_succ_lt_succ h) (by simpa using h₂)

theorem get_modifyAt_ne (l : List α) (i j : Nat) (f : α → α) (hne : i ≠ j)
    (h : j < l.length) (h₂ : j < (modifyAt l i f).length) :
    (modifyAt l i f).get ⟨j, h₂⟩ = l.get ⟨j, h⟩ := by
  induction l generalizing i j with
  | nil => cases h
  | cons a l ih =>
      cases i with
      | zero =>
          cases j with
          | zero => exact absurd rfl hne
          | succ j => rfl
      | succ i =>
          cases j with
          | zero => rfl
          | succ j =>
              exact ih i j (fun hij => hne (by omega)) (Nat.lt_of_succ_lt_succ h)
                (by simpa using h₂)

theorem mem_modifyAt {x : α} {l : List α} {i : Nat} {f : α → α}
    (h : x ∈ modifyAt l i f) :
    x ∈ l ∨ ∃ h₂ : i < l.length, x = f (l.get ⟨i, h₂⟩) := by
  induction l generalizing i with
  | nil => cases h
  | cons a l ih =>
      cases i with
      | zero =>
          rcases List.mem_cons.mp h with rfl | h
          · exact Or.inr ⟨Nat.succ_pos _, rfl⟩
          · exact Or.inl (List.mem_cons_of_mem _ h)
      | succ i =>
          rcases List.mem_cons.mp h with rfl | h
          · exact Or.inl (List.mem_cons_self _ _)
          · rcases ih h with h | ⟨h₂, hx⟩
            · exact Or.inl (List.mem_cons_of_mem _ h)
            · exact Or.inr ⟨Nat.succ_lt_succ h₂, hx⟩

theorem flattenTop_modifyAt_perm (l : List Message) (i : Nat) (m : Message)
    (h : i < l.length) :
    (flattenTop (modifyAt l i (·.addReply m))).Perm (flattenTop l ++ [m]) := by
  induction l generalizing i with
  | nil => cases h
  | cons p l ih =>
      cases i with
      | zero =>
          simp only [modifyAt, flattenTop_cons, Message.base_addReply,
            Message.replies_addReply]
          refine List.Perm.cons _ ?_
          show ((p.replies ++ [m]) ++ flattenTop l).Perm
            ((p.replies ++ flattenTop l) ++ [m])
          rw [List.append_assoc p.replies [m] (flattenTop l),
            List.append_assoc p.replies (flattenTop l) [m]]
          exact List.Perm.append_left _ List.perm_append_comm
      | succ i =>
          simp only [modifyAt, flattenTop_cons]
          refine List.Perm.cons _ ?_
          show (p.replies ++ flattenTop (modifyAt l i (·.addReply m))).Perm
            ((p.replies ++ flattenTop l) ++ [m])
          rw [List.append_assoc p.replies (flattenTop l) [m]]
          exact List.Perm.append_left _ (ih i (Nat.lt_of_succ_lt_succ h))

/-- State invariant of the thread-assembly loop after processing `pre`. -/
structure AsmInv (pre : List Message) (s : AsmState) : Prop where
  parentsIdx : ∀ ts i, List.lookup ts s.2 = some i →
    ∃ h : i < s.1.length,
      (s.1.get ⟨i, h⟩).ts = ts ∧ (s.1.get ⟨i, h⟩).isReply = false
  registered : ∀ m ∈ pre, m.isReply = false → (List.lookup m.ts s.2).isSome
  permFlat : (flattenTop s.1).Perm pre
  depth1 : ∀ p ∈ s.1, ∀ r ∈ p.replies, r.replies = []
  repliesSub : ∀ p ∈ s.1, p.replies.Sublist pre
  replyTopEmpty : ∀ p ∈ s.1, p.isReply = true → p.replies = []

theorem asmInv_init : AsmInv [] ([], []) := by
  refine ⟨?_, ?_, ?_, ?_, ?_, ?_⟩ <;> simp [flattenTop]

theorem get_append_l (l₁ l₂ : List α) (j : Nat) (h : j < l₁.length)
    (h₂ : j < (l₁ ++ l₂).length) : (l₁ ++ l₂).get ⟨j, h₂⟩ = l₁.get ⟨j, h⟩ := by
  induction l₁ generalizing j with
  | nil => cases h
  | cons a l ih =>
      cases j with
      | zero => rfl
      | succ j => exact ih j (Nat.lt_of_succ_lt_succ h) (by simpa using h₂)

theorem get_concat_self (l : List α) (a : α) (h : l.length < (l ++ [a]).length) :
    (l ++ [a]).get ⟨l.length, h⟩ = a := by
  induction l with
  | nil => rfl
  | cons b l ih => exact ih (by simpa using Nat.lt_of_succ_lt_succ h)

theorem get_congr {l l' : List α} (h : l = l') (j : Nat) (h₁ : j < l.length)
    (h₂ : j < l'.length) : l.get ⟨j, h₁⟩ = l'.get ⟨j, h₂⟩ := by
  subst h
  rfl

/-- One loop iteration preserves the assembly invariant. -/
theorem asmInv_step {pre : List Message} {s : AsmState} (hI : AsmInv pre s)
    {m : Message} (hm : m.replies = []) :
    AsmInv (pre ++ [m]) (assembleStep s m) := by
  by_cases hr : m.isReply = true
  · cases hlk : List.lookup m.thread_ts s.2 with
    | none =>
        have hstep : assembleStep s m = (s.1 ++ [m], s.2) := by
          simp [assembleStep, hr, hlk]
        rw [hstep]
        refine ⟨?_, ?_, ?_, ?_, ?_, ?_⟩
        · intro ts i hl
          obtain ⟨h, hts, hrep⟩ := hI.parentsIdx ts i hl
          refine ⟨by simp; omega, ?_, ?_⟩ <;>
            rw [get_append_l s.1 [m] i h (by simp; omega)]
          · exact hts
          · exact hrep
        · intro m' hm' hrep'
          rcases List.mem_append.mp hm' with h | h
          · exact hI.registered m' h hrep'
          · simp only [List.mem_singleton] at h
            subst h
            exact absurd hrep' (by simp [hr])
        · rw [flattenTop_append]
          simp only [flattenTop_cons, flattenTop_nil, Message.base_eq_self hm]
          exact List.Perm.append hI.permFlat (by simp [hm])
        · intro p hp r hrp
          rcases List.mem_append.mp hp with h | h
          · exact hI.depth1 p h r hrp
          · simp only [List.mem_singleton] at h
            subst h
            rw [hm] at hrp
            cases hrp
        · intro p hp
          rcases List.mem_append.mp hp with h | h
          · exact (hI.repliesSub p h).trans (List.sublist_append_left pre [m])
          · simp only [List.mem_singleton] at h
            subst h
            rw [hm]
            exact List.nil_sublist _
        · intro p hp _
          rcases List.mem_append.mp hp with h | h
          · exact hI.replyTopEmpty p h (by assumption)
          · simp only [List.mem_singleton] at h
            subst h
            exact hm
    | some i =>
        obtain ⟨h, hts, hrepl⟩ := hI.parentsIdx m.thread_ts i hlk
        have hstep : assembleStep s m = (modifyAt s.1 i (·.addReply m), s.2) := by
          simp [assembleStep, hr, hlk]
        rw [hstep]
        refine ⟨?_, ?_, ?_, ?_, ?_, ?_⟩
        · intro ts j hl
          obtain ⟨hj, htsj, hrepj⟩ := hI.parentsIdx ts j hl
          refine ⟨by simpa using hj, ?_, ?_⟩
          all_goals by_cases hij : i = j
          · subst hij
            rw [get_modifyAt_eq s.1 i _ h (by simpa using h)]
            simpa using htsj
          · rw [get_modifyAt_ne s.1 i j _ hij hj (by simpa using hj)]
            exact htsj
          · subst hij
            rw [get_modifyAt_eq s.1 i _ h (by simpa using h)]
            simpa using hrepj
          · rw [get_modifyAt_ne s.1 i j _ hij hj (by simpa using hj)]
            exact hrepj
        · intro m' hm' hrep'
          rcases List.mem_append.mp hm' with hmem | hmem
          · exact hI.registered m' hmem hrep'
          · simp only [List.mem_singleton] at hmem
            subst hmem
            rw [hrep'] at hr
            cases hr
        · exact (flattenTop_modifyAt_perm s.1 i m h).trans
            (List.Perm.append hI.permFlat (List.Perm.refl [m]))
        · intro p hp r hrp
          rcases mem_modifyAt hp with hmem | ⟨h₂, hpe⟩
          · exact hI.depth1 p hmem r hrp
          · subst hpe
            rw [Message.replies_addReply] at hrp
            rcases List.mem_append.mp hrp with hrm | hrm
            · exact hI.depth1 _ (List.get_mem s.1 _ _) r hrm
            · simp only [List.mem_singleton] at hrm
              subst hrm
              exact hm
        · intro p hp
          rcases mem_modifyAt hp with hmem | ⟨h₂, hpe⟩
          · exact (hI.repliesSub p hmem).trans (List.sublist_append_left pre [m])
          · subst hpe
            rw [Message.replies_addReply]
            exact List.Sublist.append (hI.repliesSub _ (List.get_mem s.1 _ _))
              (List.Sublist.refl [m])
        · intro p hp hpr
          rcases mem_modifyAt hp with hmem | ⟨h₂, hpe⟩
          · exact hI.replyTopEmpty p hmem hpr
          · subst hpe
            rw [Message.isReply_addReply] at hpr
            rw [hpr] at hrepl
            cases hrepl
  · have hstep : assembleStep s m = (s.1 ++ [m], (m.ts, s.1.length) :: s.2) := by
      simp [assembleStep, hr]
    rw [hstep]
    have hrF : m.isReply = false := by
      cases hv : m.isReply
      · rfl
      · exact absurd hv hr
    refine ⟨?_, ?_, ?_, ?_, ?_, ?_⟩
    · intro ts i hl
      by_cases hts : ts = m.ts
      · subst hts
        have hi : i = s.1.length := by
          simp [List.lookup_cons] at hl
          omega
        subst hi
        refine ⟨by simp, ?_, ?_⟩ <;>
          rw [get_concat_self s.1 m (by simp)]
        exact hrF
      · have hl' : List.lookup ts s.2 = some i := by
          simpa [List.lookup_cons, beq_false_of_ne hts] using hl
        obtain ⟨h, htsj, hrepj⟩ := hI.parentsIdx ts i hl'
        refine ⟨by simp; omega, ?_, ?_⟩ <;>
          rw [get_append_l s.1 [m] i h (by simp; omega)]
        · exact htsj
        · exact hrepj
    · intro m' hm' hrep'
      rcases List.mem_append.mp hm' with hmem | hmem
      · by_cases hts : m'.ts = m.ts
        · simp [List.lookup_cons, hts]
        · have := hI.registered m' hmem hrep'
          simpa [List.lookup_cons, beq_false_of_ne hts] using this
      · simp only [List.mem_singleton] at hmem
        subst hmem
        simp [List.lookup_cons]
    · rw [flattenTop_append]
      simp only [flattenTop_cons, flattenTop_nil, Message.base_eq_self hm]
      exact List.Perm.append hI.permFlat (by simp [hm])
    · intro p hp r hrp
      rcases List.mem_append.mp hp with hmem | hmem
      · exact hI.depth1 p hmem r hrp
      · simp only [List.mem_singleton] at hmem
        subst hmem
        rw [hm] at hrp
        cases hrp
    · intro p hp
      rcases List.mem_append.mp hp with hmem | hmem
      · exact (hI.repliesSub p hmem).trans (List.sublist_append_left pre [m])
      · simp only [List.mem_singleton] at hmem
        subst hmem
        rw [hm]
        exact List.nil_sublist _
    · intro p hp _
      rcases List.mem_append.mp hp with hmem | hmem
      · exact hI.replyTopEmpty p hmem (by assumption)
      · simp only [List.mem_singleton] at hmem
        subst hmem
        exact hm

/-- The assembly invariant holds after folding over any suffix. -/
theorem asmInv_foldl (l : List Message) (pre : List Message) (s : AsmState)
    (hI : AsmInv pre s) (hl : ∀ x ∈ l, x.replies = []) :
    AsmInv (pre ++ l) (l.foldl assembleStep s) := by
  induction l generalizing pre s with
  | nil => simpa using hI
  | cons x l ih =>
      simp only [List.foldl_cons]
      have step := asmInv_step hI (hl x (List.mem_cons_self _ _))
      have := ih (pre ++ [x]) _ step (fun y hy => hl y (List.mem_cons_of_mem _ hy))
      simpa [List.append_assoc] using this

/-- One step moves an existing `top_level` entry to the same position either
unchanged or (for a registered, hence top-level-classified, parent) with one
reply appended. -/
theorem assembleStep_get {pre : List Message} {s : AsmState} (hI : AsmInv pre s)
    (x : Message) (j : Nat) (h : j < s.1.length) :
    ∃ h₂ : j < (assembleStep s x).1.length,
      (assembleStep s x).1.get ⟨j, h₂⟩ = s.1.get ⟨j, h⟩ ∨
        ((assembleStep s x).1.get ⟨j, h₂⟩ = (s.1.get ⟨j, h⟩).addReply x ∧
          (s.1.get ⟨j, h⟩).isReply = false) := by
  by_cases hr : x.isReply = true
  · cases hlk : List.lookup x.thread_ts s.2 with
    | none =>
        have hstep : assembleStep s x = (s.1 ++ [x], s.2) := by
          simp [assembleStep, hr, hlk]
        rw [hstep]
        exact ⟨by simp; omega, Or.inl (get_append_l s.1 [x] j h (by simp; omega))⟩
    | some i =>
        obtain ⟨hi, _, hrepl⟩ := hI.parentsIdx x.thread_ts i hlk
        have hstep : assembleStep s x = (modifyAt s.1 i (·.addReply x), s.2) := by
          simp [assembleStep, hr, hlk]
        rw [hstep]
        by_cases hij : i = j
        · subst hij
          refine ⟨by simpa using hi, Or.inr ⟨?_, hrepl⟩⟩
          exact get_modifyAt_eq s.1 i _ hi (by simpa using hi)
        · exact ⟨by simpa using h,
            Or.inl (get_modifyAt_ne s.1 i j _ hij h (by simpa using h))⟩
  · have hstep : assembleStep s x = (s.1 ++ [x], (x.ts, s.1.length) :: s.2) := by
      simp [assembleStep, hr]
    rw [hstep]
    exact ⟨by simp; omega, Or.inl (get_append_l s.1 [x] j h (by simp; omega))⟩

/-- Tracking through the rest of the fold: replies already collected stay
collected at the same position, and a reply-classified top-level entry is
never modified again. -/
theorem track_foldl (l : List Message) (pre : List Message) (s : AsmState)
    (hI : AsmInv pre s) (hl : ∀ x ∈ l, x.replies = [])
    (j : Nat) (h : j < s.1.length) :
    ∃ h₂ : j < (l.foldl assembleStep s).1.length,
      (∀ m', m' ∈ (s.1.get ⟨j, h⟩).replies →
        m' ∈ ((l.foldl assembleStep s).1.get ⟨j, h₂⟩).replies) ∧
      ((s.1.get ⟨j, h⟩).isReply = true →
        (l.foldl assembleStep s).1.get ⟨j, h₂⟩ = s.1.get ⟨j, h⟩) := by
  induction l generalizing pre s with
  | nil => exact ⟨h, fun _ hm => hm, fun _ => rfl⟩
  | cons x l ih =>
      simp only [List.foldl_cons]
      obtain ⟨h₁, hcase⟩ := assembleStep_get hI x j h
      have hI' : AsmInv (pre ++ [x]) (assembleStep s x) :=
        asmInv_step hI (hl x (List.mem_cons_self _ _))
      obtain ⟨h₂, hmem, hfroz⟩ :=
        ih (pre ++ [x]) (assembleStep s x) hI'
          (fun y hy => hl y (List.mem_cons_of_mem _ hy)) h₁
      rcases hcase with heq | ⟨heq, hrepF⟩
      · exact ⟨h₂, fun m' hm' => hmem m' (by rw [heq]; exact hm'),
          fun ht => (hfroz (by rw [heq]; exact ht)).trans heq⟩
      · refine ⟨h₂, fun m' hm' => hmem m' ?_, fun ht => absurd (hrepF ▸ ht) (by simp)⟩
        rw [heq, Message.replies_addReply]
        exact List.mem_append_left _ hm'

/-- Every timestamp of a no-duplicate-timestamp collection occurs exactly
once, counted by predicate. -/
theorem countP_ts_eq_one {l : List Message} {m : Message}
    (hnd : (l.map Message.ts).Nodup) (hm : m ∈ l) :
    l.countP (fun x => x.ts == m.ts) = 1 := by
  induction l with
  | nil => cases hm
  | cons a l ih =>
      simp only [List.map_cons, List.nodup_cons] at hnd
      rcases List.mem_cons.mp hm with rfl | hm
      · rw [List.countP_cons_of_pos _ _ (by simp)]
        have hz : l.countP (fun x => x.ts == m.ts) = 0 := by
          rw [List.countP_eq_zero]
          intro y hy hbeq
          exact hnd.1 (List.mem_map.mpr ⟨y, hy, by simpa using hbeq⟩)
        omega
      · rw [List.countP_cons_of_neg _ _ (by
          simp only [beq_iff_eq]
          intro hEq
          exact hnd.1 (List.mem_map.mpr ⟨m, hm, hEq.symm⟩)), ih hnd.2 hm]

/-- Two distinct top-level entries contribute at least two matches to the
flattened count when each of their blocks matches at least once. -/
theorem countP_two_blocks {out : List Message} {p q : Message}
    (f : Message → Bool)
    (hp : p ∈ out) (hq : q ∈ out) (hpq : p ≠ q)
    (hfp : 0 < (p.base :: p.replies).countP f)
    (hfq : 0 < (q.base :: q.replies).countP f) :
    2 ≤ (flattenTop out).countP f := by
  obtain ⟨o₁, o₂, rfl⟩ := List.append_of_mem hp
  have hq' : q ∈ o₁ ∨ q ∈ o₂ := by
    rcases List.mem_append.mp hq with hq₁ | hq₂
    · exact Or.inl hq₁
    · rcases List.mem_cons.mp hq₂ with rfl | hq₂
      · exact absurd rfl hpq.symm
      · exact Or.inr hq₂
  have hblock : ∀ r : Message, r ∈ o₁ ∨ r ∈ o₂ →
      0 < (r.base :: r.replies).countP f →
      (flattenTop o₁).countP f + (flattenTop o₂).countP f ≥ 1 := by
    intro r hr hfr
    rcases hr with hr | hr <;>
      [obtain ⟨a₁, a₂, rfl⟩ := List.append_of_mem hr;
       obtain ⟨a₁, a₂, rfl⟩ := List.append_of_mem hr] <;>
      simp only [flattenTop_append, flattenTop_cons, List.countP_append,
        List.countP_cons] at * <;> omega
  have h1 := hblock q hq' hfq
  simp only [flattenTop_append, flattenTop_cons, List.countP_append,
    List.countP_cons] at *
  omega

theorem sortMessages_eq_some {msgs l : List Message}
    (h : sortMessages msgs = some l) :
    l = msgs.insertionSort msgLe := by
  unfold sortMessages at h
  split at h
  · exact (Option.some.injEq _ _ ▸ h).symm
  · cases h

theorem loadCM_eq_some {raws : List RawMessage} {users : Users}
    {out : List Message}
    (h : (loadChannelMessages raws users).1 = some out) :
    sortMessages (raws.map parseMessage) =
        some ((raws.map parseMessage).insertionSort msgLe) ∧
      out = assemble ((raws.map parseMessage).insertionSort msgLe) := by
  unfold loadChannelMessages at h
  cases hs : sortMessages (raws.map parseMessage) with
  | none => rw [hs] at h; cases h
  | some l =>
      rw [hs] at h
      simp only [Option.map_some] at h
      have hl := sortMessages_eq_some hs
      subst hl
      exact ⟨rfl, (Option.some.inj h).symm⟩

@[simp] theorem parseMessage_replies (raw : RawMessage) :
    (parseMessage raw).replies = [] := rfl

/-- The final assembly invariant for the fold over any parsed-and-sorted
collection, from the empty initial state. -/
theorem asmInv_final (msgs : List Message) (hrep : ∀ x ∈ msgs, x.replies = []) :
    AsmInv msgs (msgs.foldl assembleStep ([], [])) := by
  simpa using asmInv_foldl msgs [] ([], []) asmInv_init hrep

/-- **C1.**  Over the timestamp-sorted parsed collection `msgs` consumed by
the assembly pass of `load_channel_messages` (parsed records have empty
`replies`; timestamps are unique keys, per the data model), every
reply-classified message `m` — written with its position exposed as
`msgs = u ++ m :: v` — ends up inside the `replies` of exactly one
top-level message when some message before it was registered as a parent
with timestamp `m.thread_ts`, and directly in the returned top-level
sequence otherwise; never both, never neither. -/
theorem claim_c1_reply_placement (msgs : List Message)
    (hrep : ∀ x ∈ msgs, x.replies = [])
    (hnd : (msgs.map Message.ts).Nodup)
    (m : Message) (hm : m.isReply = true)
    (u v : List Message) (hsplit : msgs = u ++ m :: v) :
    (parentBefore u m →
      (∃ p ∈ assemble msgs, m ∈ p.replies) ∧
      (∀ p ∈ assemble msgs, ∀ q ∈ assemble msgs,
        m ∈ p.replies → m ∈ q.replies → p = q) ∧
      m ∉ assemble msgs) ∧
    (¬parentBefore u m →
      m ∈ assemble msgs ∧ ∀ p ∈ assemble msgs, m ∉ p.replies) := by
  subst hsplit
  have hmem_m : m ∈ u ++ m :: v :=
    List.mem_append_right _ (List.mem_cons_self _ _)
  have hmrep : m.replies = [] := hrep m hmem_m
  have hIfin := asmInv_final (u ++ m :: v) hrep
  have hIu : AsmInv u (u.foldl assembleStep ([], [])) :=
    asmInv_final u (fun x hx => hrep x (List.mem_append_left _ hx))
  -- the flattened output counts m's timestamp exactly once
  have hcount : (flattenTop (assemble (u ++ m :: v))).countP
      (fun x => x.ts == m.ts) = 1 := by
    unfold assemble
    rw [List.Perm.countP_eq _ hIfin.permFlat]
    exact countP_ts_eq_one hnd hmem_m
  -- m can never sit both in some replies list and directly at top level
  have hnotboth : ∀ p ∈ assemble (u ++ m :: v), m ∈ p.replies →
      m ∉ assemble (u ++ m :: v) := by
    intro p hp hmp hmo
    by_cases hpm : p = m
    · subst hpm
      rw [hmrep] at hmp
      cases hmp
    · have h2 := countP_two_blocks (fun x => x.ts == m.ts) hp hmo hpm
        (List.countP_pos_iff.mpr ⟨m, List.mem_cons_of_mem _ hmp, by simp⟩)
        (List.countP_pos_iff.mpr ⟨m.base, List.mem_cons_self _ _, by simp⟩)
      omega
  -- m sits in the replies of at most one top-level entry
  have huniq : ∀ p ∈ assemble (u ++ m :: v), ∀ q ∈ assemble (u ++ m :: v),
      m ∈ p.replies → m ∈ q.replies → p = q := by
    intro p hp q hq hmp hmq
    by_contra hpq
    have h2 := countP_two_blocks (fun x => x.ts == m.ts) hp hq hpq
      (List.countP_pos_iff.mpr ⟨m, List.mem_cons_of_mem _ hmp, by simp⟩)
      (List.countP_pos_iff.mpr ⟨m, List.mem_cons_of_mem _ hmq, by simp⟩)
    omega
  have hfold : assemble (u ++ m :: v) =
      (v.foldl assembleStep
        (assembleStep (u.foldl assembleStep ([], [])) m)).1 := by
    simp [assemble, List.foldl_append]
  constructor
  · -- a parent was registered before m: m joins that parent's replies
    intro hpb
    obtain ⟨pp, hppm, hpprep, hppts⟩ := hpb
    have hreg := hIu.registered pp hppm hpprep
    rw [hppts] at hreg
    cases hlk : List.lookup m.thread_ts (u.foldl assembleStep ([], [])).2 with
    | none => rw [hlk] at hreg; cases hreg
    | some i =>
        obtain ⟨hi, _, _⟩ := hIu.parentsIdx _ i hlk
        have hstep : assembleStep (u.foldl assembleStep ([], [])) m =
            (modifyAt (u.foldl assembleStep ([], [])).1 i (·.addReply m),
             (u.foldl assembleStep ([], [])).2) := by
          simp [assembleStep, hm, hlk]
        have hI₁ := asmInv_step hIu hmrep
        have h₁i : i < (assembleStep (u.foldl assembleStep ([], [])) m).1.length := by
          rw [hstep]
          simpa using hi
        have hmem_i : m ∈ ((assembleStep (u.foldl assembleStep ([], [])) m).1.get
            ⟨i, h₁i⟩).replies := by
          have hlists : (assembleStep (u.foldl assembleStep ([], [])) m).1 =
              modifyAt (u.foldl assembleStep ([], [])).1 i (·.addReply m) :=
            congrArg Prod.fst hstep
          rw [get_congr hlists i h₁i (by simpa using hi),
            get_modifyAt_eq (u.foldl assembleStep ([], [])).1 i
              (·.addReply m) hi (by simpa using hi),
            Message.replies_addReply]
          exact List.mem_append_right _ (List.mem_singleton.mpr rfl)
        obtain ⟨h₂, hkeep, _⟩ := track_foldl v (u ++ [m]) _ hI₁
          (fun y hy => hrep y
            (List.mem_append_right _ (List.mem_cons_of_mem _ hy)))
          i h₁i
        have hpmem : (v.foldl assembleStep
            (assembleStep (u.foldl assembleStep ([], [])) m)).1.get ⟨i, h₂⟩ ∈
            assemble (u ++ m :: v) := by
          rw [hfold]
          exact List.get_mem _ _ _
        have hmrepl : m ∈ ((v.foldl assembleStep
            (assembleStep (u.foldl assembleStep ([], [])) m)).1.get ⟨i, h₂⟩).replies :=
          hkeep m hmem_i
        refine ⟨⟨_, hpmem, hmrepl⟩, huniq, ?_⟩
        exact hnotboth _ hpmem hmrepl
  · -- no parent was registered: m is appended to the top level and stays
    intro hpb
    have hlk : List.lookup m.thread_ts (u.foldl assembleStep ([], [])).2 = none := by
      cases hlk : List.lookup m.thread_ts (u.foldl assembleStep ([], [])).2 with
      | none => rfl
      | some i =>
          obtain ⟨hi, hts, hrepl⟩ := hIu.parentsIdx _ i hlk
          have hbase : ((u.foldl assembleStep ([], [])).1.get ⟨i, hi⟩).base ∈ u :=
            hIu.permFlat.mem_iff.mp
              (base_mem_flattenTop (List.get_mem _ _ _))
          exact absurd ⟨_, hbase, by simpa using hrepl, by simpa using hts⟩ hpb
    have hstep : assembleStep (u.foldl assembleStep ([], [])) m =
        ((u.foldl assembleStep ([], [])).1 ++ [m],
         (u.foldl assembleStep ([], [])).2) := by
      simp [assembleStep, hm, hlk]
    have hI₁ := asmInv_step hIu hmrep
    have h₁j : (u.foldl assembleStep ([], [])).1.length <
        (assembleStep (u.foldl assembleStep ([], [])) m).1.length := by
      rw [hstep]
      simp
    have hgetj : (assembleStep (u.foldl assembleStep ([], [])) m).1.get
        ⟨(u.foldl assembleStep ([], [])).1.length, h₁j⟩ = m := by
      have hlists : (assembleStep (u.foldl assembleStep ([], [])) m).1 =
          (u.foldl assembleStep ([], [])).1 ++ [m] :=
        congrArg Prod.fst hstep
      rw [get_congr hlists _ h₁j (by simp)]
      exact get_concat_self _ m (by simp)
    obtain ⟨h₂, _, hfroz⟩ := track_foldl v (u ++ [m]) _ hI₁
      (fun y hy => hrep y
        (List.mem_append_right _ (List.mem_cons_of_mem _ hy)))
      (u.foldl assembleStep ([], [])).1.length h₁j
    have hfin : (v.foldl assembleStep
        (assembleStep (u.foldl assembleStep ([], [])) m)).1.get
        ⟨(u.foldl assembleStep ([], [])).1.length, h₂⟩ = m := by
      rw [hfroz (by rw [hgetj]; exact hm)]
      exact hgetj
    have hmout : m ∈ assemble (u ++ m :: v) := by
      have hmem := List.get_mem (v.foldl assembleStep
        (assembleStep (u.foldl assembleStep ([], [])) m)).1
        (u.foldl assembleStep ([], [])).1.length h₂
      rw [hfin] at hmem
      rw [hfold]
      exact hmem
    refine ⟨hmout, ?_⟩
    intro p hp hmp
    exact hnotboth p hp hmp hmout

theorem sorted_parsed_replies_empty (raws : List RawMessage) :
    ∀ x ∈ (raws.map parseMessage).insertionSort msgLe, x.replies = [] := by
  intro x hx
  obtain ⟨raw, _, rfl⟩ := List.mem_map.mp ((List.mem_insertionSort msgLe).mp hx)
  exact parseMessage_replies raw

/-- **C6.**  Thread assembly preserves the total message count: top-level
entries plus all collected replies together number exactly the parsed
input records. -/
theorem claim_c6_count_preservation (raws : List RawMessage) (users : Users)
    (out : List Message) (h : (loadChannelMessages raws users).1 = some out) :
    out.length + (out.map (fun p => p.replies.length)).sum = raws.length := by
  obtain ⟨_, hout⟩ := loadCM_eq_some h
  have hI := asmInv_final _ (sorted_parsed_replies_empty raws)
  have hlen := hI.permFlat.length_eq
  rw [length_flattenTop] at hlen
  subst hout
  unfold assemble
  rw [hlen]
  simp

/-- **C8.**  After assembly the reply structure has depth exactly one
(no collected reply carries replies of its own), and each top-level
message's replies are in ascending timestamp order. -/
theorem claim_c8_depth_one_sorted_replies (raws : List RawMessage)
    (users : Users) (out : List Message)
    (h : (loadChannelMessages raws users).1 = some out) :
    ∀ p ∈ out, (∀ r ∈ p.replies, r.replies = []) ∧ p.replies.Pairwise msgLe := by
  obtain ⟨_, hout⟩ := loadCM_eq_some h
  have hI := asmInv_final _ (sorted_parsed_replies_empty raws)
  subst hout
  unfold assemble
  intro p hp
  refine ⟨fun r hr => hI.depth1 p hp r hr, ?_⟩
  exact List.Pairwise.sublist (hI.repliesSub p hp)
    (List.sorted_insertionSort msgLe (raws.map parseMessage))

/-- **C2 (amended).**  The pre-assembly sort orders messages by their
timestamp string read as a real number, ascending; an empty timestamp gets
sort key zero.  But only the empty string falls back: a non-empty timestamp
that does not parse as a number makes the key computation raise, and the
whole sort (hence the load) fails rather than treating the key as zero. -/
theorem claim_c2_sort_fallibility (msgs : List Message) :
    ((∀ m ∈ msgs, m.ts ≠ "" → (parseTs m.ts).isSome) →
      ∃ l, sortMessages msgs = some l ∧ l.Perm msgs ∧ l.Pairwise msgLe) ∧
    (∀ m ∈ msgs, m.ts = "" → sortKey? m = some (0, 0)) ∧
    ((∃ m ∈ msgs, m.ts ≠ "" ∧ parseTs m.ts = none) → sortMessages msgs = none) := by
  refine ⟨?_, ?_, ?_⟩
  · intro hp
    have hall : msgs.all (fun m => (sortKey? m).isSome) = true := by
      rw [List.all_eq_true]
      intro m hm
      unfold sortKey?
      by_cases h : m.ts = ""
      · simp [h]
      · simpa [h] using hp m hm h
    refine ⟨msgs.insertionSort msgLe, ?_, List.perm_insertionSort msgLe msgs,
      List.sorted_insertionSort msgLe msgs⟩
    unfold sortMessages
    rw [if_pos hall]
  · intro m _ h
    unfold sortKey?
    rw [if_pos h]
  · rintro ⟨m, hm, hne, hnone⟩
    have hkey : sortKey? m = none := by
      unfold sortKey?
      rw [if_neg hne]
      exact hnone
    have hfail : ¬(msgs.all (fun m => (sortKey? m).isSome) = true) := by
      rw [List.all_eq_true]
      intro hall
      have := hall m hm
      rw [hkey] at this
      cases this
    unfold sortMessages
    rw [if_neg hfail]

/-- **C2, counterexample to the claim as stated.**  A single message whose
timestamp is the non-empty unparseable string `"abc"` does not sort as if
its timestamp were zero: computing its float key raises and
`load_channel_messages` fails instead of returning the one-message list. -/
theorem claim_c2_counterexample :
    (loadChannelMessages
      [{ user := some "u", text := some "hi", ts := some "abc",
         thread_ts := none, subtype := none, attachments := [], files := [],
         user_profile := none }] []).1 = none := rfl

theorem lookup_append_of_isSome [BEq α] {l₁ l₂ : List (α × β)} {k : α}
    (h : (List.lookup k l₁).isSome) :
    List.lookup k (l₁ ++ l₂) = List.lookup k l₁ := by
  induction l₁ with
  | nil => cases h
  | cons a l ih =>
      rw [List.cons_append, List.lookup_cons, List.lookup_cons] at *
      cases hek : (k == a.1) with
      | true => rfl
      | false =>
          rw [hek] at h
          exact ih h

theorem backfill_preserves (raws : List RawMessage) (users : Users) (k : String)
    (h : (List.lookup k users).isSome) :
    List.lookup k (backfillAll raws users) = List.lookup k users := by
  induction raws generalizing users with
  | nil => rfl
  | cons raw raws ih =>
      have hstep : List.lookup k (backfillStep users raw) = List.lookup k users := by
        by_cases hc : (raw.user.getD "" ≠ "" ∧
            List.lookup (raw.user.getD "") users = none)
        · cases hp : raw.user_profile with
          | some p =>
              simp only [backfillStep, if_pos hc, hp]
              exact lookup_append_of_isSome h
          | none => simp [backfillStep, if_pos hc, hp]
        · simp [backfillStep, if_neg hc]
      have hsome : (List.lookup k (backfillStep users raw)).isSome := by
        rw [hstep]
        exact h
      calc List.lookup k (backfillAll (raw :: raws) users)
          = List.lookup k (backfillAll raws (backfillStep users raw)) := rfl
        _ = List.lookup k (backfillStep users raw) := ih _ hsome
        _ = List.lookup k users := hstep

/-- **C7.**  The user-backfill side effect of `load_channel_messages` never
overwrites an entry present before the call: every id present beforehand
still resolves to the same `User` afterwards, so only previously absent ids
are ever inserted. -/
theorem claim_c7_backfill_no_overwrite (raws : List RawMessage) (users : Users)
    (k : String) (h : (List.lookup k users).isSome) :
    List.lookup k ((loadChannelMessages raws users).2) = List.lookup k users :=
  backfill_preserves raws users k h

/-- **C5 (amended).**  Message records are parsed totally: every missing
field defaults to the empty string (or empty list), and message parsing
never raises.  Users/channels records default their optional fields
likewise, but `load_users` succeeds exactly when every record carries an
`id`, and `load_channels` exactly when every record carries both an `id`
and a `name`: a record missing one of those raises `KeyError` and fails the
whole load. -/
theorem claim_c5_missing_field_defaults :
    (∀ raws : List RawUser, (loadUsers raws).isSome ↔ ∀ r ∈ raws, r.id.isSome) ∧
    (∀ raws : List RawChannel,
      (loadChannels raws).isSome ↔ ∀ r ∈ raws, r.id.isSome ∧ r.name.isSome) ∧
    (∀ raw : RawMessage,
      (raw.user = none → (parseMessage raw).user = "") ∧
      (raw.text = none → (parseMessage raw).text = "") ∧
      (raw.ts = none → (parseMessage raw).ts = "") ∧
      (raw.thread_ts = none → (parseMessage raw).thread_ts = "") ∧
      (raw.subtype = none → (parseMessage raw).subtype = "") ∧
      (raw.attachments = [] → (parseMessage raw).attachments = []) ∧
      (raw.files = [] → (parseMessage raw).files = [])) := by
  refine ⟨?_, ?_, ?_⟩
  · intro raws
    induction raws with
    | nil => simp [loadUsers]
    | cons u rest ih =>
        constructor
        · intro h r hr
          rcases List.mem_cons.mp hr with rfl | hr
          · cases hid : r.id with
            | none => rw [loadUsers, parseUser, hid] at h; cases h
            | some i => rfl
          · cases hu : parseUser u with
            | none => rw [loadUsers, hu] at h; cases h
            | some p =>
                rw [loadUsers, hu] at h
                cases hrest : loadUsers rest with
                | none => rw [hrest] at h; cases h
                | some l => exact (ih.mp (by rw [hrest]; rfl)) r hr
        · intro h
          have hid := h u (List.mem_cons_self _ _)
          cases hu : u.id with
          | none => rw [hu] at hid; cases hid
          | some i =>
              rw [loadUsers, parseUser, hu]
              have := ih.mpr (fun r hr => h r (List.mem_cons_of_mem _ hr))
              cases hrest : loadUsers rest with
              | none => rw [hrest] at this; cases this
              | some l => simp
  · intro raws
    induction raws with
    | nil => simp [loadChannels]
    | cons c rest ih =>
        constructor
        · intro h r hr
          rcases List.mem_cons.mp hr with rfl | hr
          · cases hid : r.id with
            | none => rw [loadChannels, parseChannel, hid] at h; cases h
            | some i =>
                cases hnm : r.name with
                | none => rw [loadChannels, parseChannel, hid, hnm] at h; cases h
                | some n => exact ⟨rfl, rfl⟩
          · cases hc : parseChannel c with
            | none => rw [loadChannels, hc] at h; cases h
            | some ch =>
                rw [loadChannels, hc] at h
                cases hrest : loadChannels rest with
                | none => rw [hrest] at h; cases h
                | some l => exact (ih.mp (by rw [hrest]; rfl)) r hr
        · intro h
          obtain ⟨hid, hnm⟩ := h c (List.mem_cons_self _ _)
          cases hu : c.id with
          | none => rw [hu] at hid; cases hid
          | some i =>
              cases hn : c.name with
              | none => rw [hn] at hnm; cases hnm
              | some n =>
                  rw [loadChannels, parseChannel, hu, hn]
                  have := ih.mpr (fun r hr => h r (List.mem_cons_of_mem _ hr))
                  cases hrest : loadChannels rest with
                  | none => rw [hrest] at this; cases this
                  | some l => simp
  · intro raw
    refine ⟨?_, ?_, ?_, ?_, ?_, ?_, ?_⟩ <;> intro h <;> simp [parseMessage, h]

/-- **C5, counterexample to the claim as stated.**  A users-metadata record
missing the `id` field is not defaulted: `load_users` subscripts `u["id"]`
directly, so the load raises `KeyError` instead of recovering. -/
theorem claim_c5_counterexample :
    loadUsers [{ id := none, name := some "alice",
                 real_name := some "Alice",
                 profile_display_name := none }] = none := rfl

/-! ## Markup engine (`formatter.py`, `convert_mrkdwn`)

Each `re.sub` call is embedded as a left-to-right scanner: at every
position it attempts the pattern; on a match it emits the replacement and
resumes after the matched region (matching always against the original
text, as `re.sub` does), otherwise it emits one character and advances.
The scanners carry a fuel argument (consumed one unit per position) so
that they are structurally recursive and kernel-computable; the wrapper
passes `length + 1`, which the congruence lemmas show is always enough. -/

/-- A pattern-match attempt at the current position: `some` holds the
replacement text and the remaining input after the matched region. -/
def subF (tryM : List Char → Option (List Char × List Char)) :
    Nat → List Char → List Char
  | 0, _ => []
  | _ + 1, [] => []
  | f + 1, c :: rs =>
      match tryM (c :: rs) with
      | some (rep, rest) => rep ++ subF tryM f rest
      | none => c :: subF tryM f rs

/-- A match always consumes at least one character. -/
def Shrinking (tryM : List Char → Option (List Char × List Char)) : Prop :=
  ∀ l rep rest, tryM l = some (rep, rest) → rest.length < l.length

theorem subF_congr (tryM) (hM : Shrinking tryM) :
    ∀ f₁ f₂ l, l.length < f₁ → l.length < f₂ →
      subF tryM f₁ l = subF tryM f₂ l := by
  intro f₁
  induction f₁ with
  | zero => intro f₂ l h₁ _; omega
  | succ f₁ ih =>
      intro f₂ l h₁ h₂
      cases f₂ with
      | zero => omega
      | succ f₂ =>
          cases l with
          | nil => rfl
          | cons c rs =>
              simp only [subF]
              cases hM' : tryM (c :: rs) with
              | none =>
                  simp only
                  rw [ih f₂ rs (by simpa using h₁) (by simpa using h₂)]
              | some pr =>
                  obtain ⟨rep, rest⟩ := pr
                  have hlt : rest.length < rs.length + 1 := by
                    simpa using hM _ _ _ hM'
                  simp only
                  rw [ih f₂ rest (by simp at h₁; omega) (by simp at h₂; omega)]

/-- The substitution at adequate fuel. -/
def subRe (tryM : List Char → Option (List Char × List Char))
    (l : List Char) : List Char :=
  subF tryM (l.length + 1) l

theorem subRe_nil (tryM) : subRe tryM [] = [] := rfl

theorem subRe_cons (tryM) (hM : Shrinking tryM) (c : Char) (rs : List Char) :
    subRe tryM (c :: rs) =
      match tryM (c :: rs) with
      | some (rep, rest) => rep ++ subRe tryM rest
      | none => c :: subRe tryM rs := by
  unfold subRe
  cases hM' : tryM (c :: rs) with
  | none => simp only [List.length_cons, subF, hM']
  | some pr =>
      obtain ⟨rep, rest⟩ := pr
      have hlt := hM _ _ _ hM'
      simp only [List.length_cons, subF, hM']
      rw [subF_congr tryM hM (rs.length + 1) (rest.length + 1) rest
        (by simp at hlt; omega) (by omega)]

/-- The ASCII range of Python's `\w` (the timestamps, ids and mention
tokens this converter sees are ASCII). -/
def isWordChar (c : Char) : Bool :=
  c.isAlphanum || c = '_'

/-- `users.get(uid)`-based mention replacement: bold `@` + `User.label`,
falling back to the raw id for an unknown user. -/
def mentionRep (users : Users) (run : List Char) : List Char :=
  (("**@" : String).data) ++
    (match List.lookup (String.mk run) users with
     | some u => u.label.data
     | none => run) ++
    (("**" : String).data)

/-- The pattern of `re.sub(r"<@(\w+)(?:\|[^>]*)?>", replace_user_mention, ...)`
tried at one position. -/
def tryMention (users : Users) (l : List Char) :
    Option (List Char × List Char) :=
  match l with
  | '<' :: '@' :: rs =>
      let run := rs.takeWhile isWordChar
      if run.isEmpty then none
      else
        match rs.dropWhile isWordChar with
        | '>' :: rest2 => some (mentionRep users run, rest2)
        | '|' :: rest2 =>
            match rest2.findIdx? (· == '>') with
            | some k => some (mentionRep users run, rest2.drop (k + 1))
            | none => none
        | _ => none
  | _ => none

/-- The pattern of `re.sub(r"<#\w+\|([^>]+)>", r"#\1", ...)`. -/
def tryChannel (l : List Char) : Option (List Char × List Char) :=
  match l with
  | '<' :: '#' :: rs =>
      let run := rs.takeWhile isWordChar
      if run.isEmpty then none
      else
        match rs.dropWhile isWordChar with
        | '|' :: rest2 =>
            match rest2.findIdx? (· == '>') with
            | some k =>
                if k = 0 then none
                else some ('#' :: rest2.take k, rest2.drop (k + 1))
            | none => none
        | _ => none
  | _ => none

/-- The pattern of `re.sub(r"<!subteam\^\w+\|(@[^>]+)>", r"\1", ...)`. -/
def trySubteam (l : List Char) : Option (List Char × List Char) :=
  match l with
  | '<' :: '!' :: 's' :: 'u' :: 'b' :: 't' :: 'e' :: 'a' :: 'm' :: '^' :: rs =>
      let run := rs.takeWhile isWordChar
      if run.isEmpty then none
      else
        match rs.dropWhile isWordChar with
        | '|' :: '@' :: rest2 =>
            match rest2.findIdx? (· == '>') with
            | some k =>
                if k = 0 then none
                else some ('@' :: rest2.take k, rest2.drop (k + 1))
            | none => none
        | _ => none
  | _ => none

/-- The shared pattern of the three broadcast substitutions
`<!word(?:\|[^>]*)?>` → `@word`. -/
def tryBang (word : List Char) (l : List Char) :
    Option (List Char × List Char) :=
  match l with
  | '<' :: '!' :: rs =>
      if rs.take word.length = word then
        match rs.drop word.length with
        | '>' :: rest2 => some ('@' :: word, rest2)
        | '|' :: rest2 =>
            match rest2.findIdx? (· == '>') with
            | some k => some ('@' :: word, rest2.drop (k + 1))
            | none => none
        | _ => none
      else none
  | _ => none

/-- `replace_link`: `<url|label>` → `[label](url)` (split at the first
pipe), `<url>` → bare url. -/
def linkRep (content : List Char) : List Char :=
  match content.findIdx? (· == '|') with
  | some k =>
      '[' :: content.drop (k + 1) ++ ']' :: '(' :: content.take k ++ [')']
  | none => content

/-- The pattern of `re.sub(r"<(https?://[^>]+)>", replace_link, ...)`. -/
def tryLink (l : List Char) : Option (List Char × List Char) :=
  match l with
  | '<' :: 'h' :: 't' :: 't' :: 'p' :: rs =>
      match rs with
      | 's' :: ':' :: '/' :: '/' :: rest2 =>
          (match rest2.findIdx? (· == '>') with
           | some k =>
               if k = 0 then none
               else some (linkRep (("https://" : String).data ++ rest2.take k),
                 rest2.drop (k + 1))
           | none => none)
      | ':' :: '/' :: '/' :: rest2 =>
          (match rest2.findIdx? (· == '>') with
           | some k =>
               if k = 0 then none
               else some (linkRep (("http://" : String).data ++ rest2.take k),
                 rest2.drop (k + 1))
           | none => none)
      | _ => none
  | _ => none

def subMention (users : Users) (l : List Char) : List Char :=
  subRe (tryMention users) l

def subChannelMention (l : List Char) : List Char := subRe tryChannel l

def subSubteam (l : List Char) : List Char := subRe trySubteam l

def subHere (l : List Char) : List Char := subRe (tryBang ("here" : String).data) l

def subChannelBroadcast (l : List Char) : List Char :=
  subRe (tryBang ("channel" : String).data) l

def subEveryone (l : List Char) : List Char :=
  subRe (tryBang ("everyone" : String).data) l

def subLink (l : List Char) : List Char := subRe tryLink l

/-! ### Emphasis rewriting (`*bold*`, `_italic_`, `~strike~`)

The three emphasis regexes carry look-behinds, so their scanner also
tracks the character before the current position (of the original text,
as `re` look-behinds do). -/

/-- Search for the lazy close delimiter of `(.+?)` content: the first
position holding `d` whose previous character is not `d`, whose next
character passes `afterOk`, with at least one content character consumed
and no newline in the content (`.` does not match a newline). -/
def closeSearch (d : Char) (afterOk : Option Char → Bool) :
    Char → List Char → List Char → Option (List Char × List Char)
  | _, _, [] => none
  | p, acc, x :: rs =>
      if x = d ∧ p ≠ d ∧ afterOk rs.head? ∧ acc ≠ [] then
        some (acc.reverse, rs)
      else if x = '\n' then none
      else closeSearch d afterOk x (x :: acc) rs

theorem closeSearch_rest_lt (d : Char) (afterOk : Option Char → Bool) :
    ∀ (l : List Char) (p : Char) (acc content rest : List Char),
      closeSearch d afterOk p acc l = some (content, rest) →
      rest.length < l.length := by
  intro l
  induction l with
  | nil => intro p acc content rest h; cases h
  | cons x rs ih =>
      intro p acc content rest h
      rw [closeSearch] at h
      split at h
      · injection h with hpair
        injection hpair with hc hr
        subst hr
        simp
      · split at h
        · cases h
        · have := ih x (x :: acc) content rest h
          simp only [List.length_cons]
          omega

/-- Look-behind-aware substitution scanner (fuel-based). -/
def subFP
    (tryM : Option Char → List Char → Option (List Char × List Char × Char)) :
    Nat → Option Char → List Char → List Char
  | 0, _, _ => []
  | _ + 1, _, [] => []
  | f + 1, prev, c :: rs =>
      match tryM prev (c :: rs) with
      | some (rep, rest, np) => rep ++ subFP tryM f (some np) rest
      | none => c :: subFP tryM f (some c) rs

def ShrinkingP
    (tryM : Option Char → List Char → Option (List Char × List Char × Char)) :
    Prop :=
  ∀ prev l rep rest np, tryM prev l = some (rep, rest, np) →
    rest.length < l.length

theorem subFP_congr (tryM) (hM : ShrinkingP tryM) :
    ∀ f₁ f₂ prev l, l.length < f₁ → l.length < f₂ →
      subFP tryM f₁ prev l = subFP tryM f₂ prev l := by
  intro f₁
  induction f₁ with
  | zero => intro f₂ prev l h₁ _; omega
  | succ f₁ ih =>
      intro f₂ prev l h₁ h₂
      cases f₂ with
      | zero => omega
      | succ f₂ =>
          cases l with
          | nil => rfl
          | cons c rs =>
              simp only [subFP]
              cases hM' : tryM prev (c :: rs) with
              | none =>
                  simp only
                  rw [ih f₂ (some c) rs (by simpa using h₁) (by simpa using h₂)]
              | some pr =>
                  obtain ⟨rep, rest, np⟩ := pr
                  have hlt : rest.length < rs.length + 1 := by
                    simpa using hM _ _ _ _ _ hM'
                  simp only
                  rw [ih f₂ (some np) rest (by simp at h₁; omega)
                    (by simp at h₂; omega)]

/-- The look-behind-aware substitution at adequate fuel. -/
def subReP (tryM : Option Char → List Char → Option (List Char × List Char × Char))
    (prev : Option Char) (l : List Char) : List Char :=
  subFP tryM (l.length + 1) prev l

theorem subReP_nil (tryM) (prev) : subReP tryM prev [] = [] := rfl

theorem subReP_cons (tryM) (hM : ShrinkingP tryM) (prev : Option Char)
    (c : Char) (rs : List Char) :
    subReP tryM prev (c :: rs) =
      match tryM prev (c :: rs) with
      | some (rep, rest, np) => rep ++ subReP tryM (some np) rest
      | none => c :: subReP tryM (some c) rs := by
  unfold subReP
  cases hM' : tryM prev (c :: rs) with
  | none => simp only [List.length_cons, subFP, hM']
  | some pr =>
      obtain ⟨rep, rest, np⟩ := pr
      have hlt : rest.length < rs.length + 1 := by
        simpa using hM _ _ _ _ _ hM'
      simp only [List.length_cons, subFP, hM']
      rw [subFP_congr tryM hM (rs.length + 1) (rest.length + 1) (some np) rest
        (by omega) (by omega)]

/-- One open-delimiter attempt of an emphasis regex
`(?<!X)d(?!Y)(.+?)(?<!d)d(?!Z)`. -/
def tryEmph (d : Char) (openPrevOk openNextOk afterOk : Option Char → Bool)
    (wrapL wrapR : List Char) (prev : Option Char) (l : List Char) :
    Option (List Char × List Char × Char) :=
  match l with
  | [] => none
  | c :: rs =>
      if c = d ∧ openPrevOk prev ∧ openNextOk rs.head? then
        match closeSearch d afterOk d [] rs with
        | some (content, rest) => some (wrapL ++ content ++ wrapR, rest, d)
        | none => none
      else none

theorem tryEmph_shrinking (d openPrevOk openNextOk afterOk wrapL wrapR) :
    ShrinkingP (tryEmph d openPrevOk openNextOk afterOk wrapL wrapR) := by
  intro prev l rep rest np h
  cases l with
  | nil => cases h
  | cons c rs =>
      rw [tryEmph] at h
      split at h
      · cases hcs : closeSearch d afterOk d [] rs with
        | none => rw [hcs] at h; cases h
        | some pr =>
            obtain ⟨content, rest'⟩ := pr
            rw [hcs] at h
            injection h with htrip
            injection htrip with hA hB
            injection hB with hB1 hB2
            subst hB1
            have := closeSearch_rest_lt d afterOk rs d [] content rest' hcs
            simp only [List.length_cons]
            omega
      · cases h

def isWordOpt : Option Char → Bool
  | some c => isWordChar c
  | none => false

/-- `re.sub(r"(?<!\*)\*(?!\*)(.+?)(?<!\*)\*(?!\*)", r"**\1**", part)`. -/
def boldPass (l : List Char) : List Char :=
  subReP (tryEmph '*' (fun p => p != some '*') (fun n => n != some '*')
    (fun n => n != some '*') ("**" : String).data ("**" : String).data) none l

/-- `re.sub(r"(?<![_\w])_(?!_)(.+?)(?<!_)_(?![_\w])", r"*\1*", part)`. -/
def italicPass (l : List Char) : List Char :=
  subReP (tryEmph '_' (fun p => !(isWordOpt p)) (fun n => n != some '_')
    (fun n => !(isWordOpt n)) ("*" : String).data ("*" : String).data) none l

/-- `re.sub(r"(?<!~)~(?!~)(.+?)(?<!~)~(?!~)", r"~~\1~~", part)`. -/
def strikePass (l : List Char) : List Char :=
  subReP (tryEmph '~' (fun p => p != some '~') (fun n => n != some '~')
    (fun n => n != some '~') ("~~" : String).data ("~~" : String).data) none l

/-- The three emphasis rewrites applied to one non-code part, in source
order: bold, then italic, then strikethrough. -/
def applyEmph (l : List Char) : List Char :=
  strikePass (italicPass (boldPass l))

/-! ### Code-span split (`_convert_slack_formatting`'s scanning loop) -/

/-- `if i > buf_start: parts.append(text[buf_start:i])` (the buffer is kept
reversed while scanning). -/
def flushBuf (buf : List Char) : List (List Char) :=
  if buf.isEmpty then [] else [buf.reverse]

/-- `text.find("```", ...)`: index of the first position where a triple
backtick starts. -/
def findTriple : List Char → Option Nat
  | [] => none
  | c :: rs =>
      if c = btChar ∧ rs.take 2 = [btChar, btChar] then some 0
      else (findTriple rs).map (· + 1)

/-- The while-loop of `_convert_slack_formatting`, fuel-based: split the
text into parts, where a part starting with a backtick is a complete
fenced block, a complete inline span, or an unterminated fenced block
reaching the end of the text. -/
def splitCodeF : Nat → List Char → List Char → List (List Char)
  | 0, _, _ => []
  | _ + 1, [], buf => flushBuf buf
  | f + 1, c :: rs, buf =>
      if c = btChar then
        if rs.take 2 = [btChar, btChar] then
          match findTriple (rs.drop 2) with
          | some k =>
              flushBuf buf ++
                (btChar :: btChar :: btChar :: (rs.drop 2).take (k + 3)) ::
                  splitCodeF f ((rs.drop 2).drop (k + 3)) []
          | none => flushBuf buf ++ [btChar :: btChar :: btChar :: rs.drop 2]
        else
          match rs.findIdx? (· == btChar) with
          | some k =>
              flushBuf buf ++ (btChar :: rs.take (k + 1)) ::
                splitCodeF f (rs.drop (k + 1)) []
          | none => splitCodeF f rs (btChar :: buf)
      else splitCodeF f rs (c :: buf)

theorem splitCodeF_congr :
    ∀ f₁ f₂ l buf, l.length < f₁ → l.length < f₂ →
      splitCodeF f₁ l buf = splitCodeF f₂ l buf := by
  intro f₁
  induction f₁ with
  | zero => intro f₂ l buf h₁ _; omega
  | succ f₁ ih =>
      intro f₂ l buf h₁ h₂
      cases f₂ with
      | zero => omega
      | succ f₂ =>
          cases l with
          | nil => rfl
          | cons c rs =>
              simp only [splitCodeF]
              split
              · split
                · cases hft : findTriple (rs.drop 2) with
                  | some k =>
                      simp only
                      rw [ih f₂ ((rs.drop 2).drop (k + 3)) []
                        (by simp at h₁ ⊢; omega) (by simp at h₂ ⊢; omega)]
                  | none => rfl
                · cases hfi : rs.findIdx? (· == btChar) with
                  | some k =>
                      simp only
                      rw [ih f₂ (rs.drop (k + 1)) []
                        (by simp at h₁ ⊢; omega) (by simp at h₂ ⊢; omega)]
                  | none =>
                      exact ih f₂ rs (btChar :: buf)
                        (by simpa using h₁) (by simpa using h₂)
              · exact ih f₂ rs (c :: buf)
                  (by simpa using h₁) (by simpa using h₂)

/-- The code-span split at adequate fuel. -/
def splitCode (l : List Char) (buf : List Char) : List (List Char) :=
  splitCodeF (l.length + 1) l buf

/-- `_convert_slack_formatting`: split on code spans/blocks, keep the parts
that start with a backtick, rewrite emphasis in the rest, and rejoin. -/
def convertSlackFormatting (l : List Char) : List Char :=
  ((splitCode l []).map fun part =>
    if part.head? = some btChar then part else applyEmph part).flatten

/-- String-level `_convert_slack_formatting`. -/
def convert_slack_formatting (s : String) : String :=
  String.mk (convertSlackFormatting s.data)

/-- `convert_mrkdwn`'s substitution pipeline, in source order: user
mentions, channel mentions, user-group mentions, `@here`, `@channel`,
`@everyone`, links, then Slack emphasis with code spans preserved. -/
def convertMrkdwnL (users : Users) (l : List Char) : List Char :=
  convertSlackFormatting (subLink (subEveryone (subChannelBroadcast
    (subHere (subSubteam (subChannelMention (subMention users l)))))))

/-- `convert_mrkdwn` (`formatter.py`). -/
def convert_mrkdwn (text : String) (users : Users) : String :=
  String.mk (convertMrkdwnL users text.data)

/-! ### Support lemmas for the scanners -/

theorem takeWhile_append_all {p : α → Bool} :
    ∀ {l₁ : List α} (l₂ : List α), (∀ c ∈ l₁, p c = true) →
      (l₁ ++ l₂).takeWhile p = l₁ ++ l₂.takeWhile p := by
  intro l₁
  induction l₁ with
  | nil => intro l₂ _; rfl
  | cons a l ih =>
      intro l₂ h
      rw [List.cons_append, List.takeWhile_cons,
        if_pos (h a (List.mem_cons_self _ _)), ih l₂
          (fun c hc => h c (List.mem_cons_of_mem _ hc)), List.cons_append]

theorem dropWhile_append_all {p : α → Bool} :
    ∀ {l₁ : List α} (l₂ : List α), (∀ c ∈ l₁, p c = true) →
      (l₁ ++ l₂).dropWhile p = l₂.dropWhile p := by
  intro l₁
  induction l₁ with
  | nil => intro l₂ _; rfl
  | cons a l ih =>
      intro l₂ h
      rw [List.cons_append, List.dropWhile_cons,
        if_pos (h a (List.mem_cons_self _ _))]
      exact ih l₂ (fun c hc => h c (List.mem_cons_of_mem _ hc))

theorem findIdxQ_append_first {p : α → Bool} :
    ∀ (c : List α) (x : α) (b : List α), (∀ y ∈ c, p y = false) → p x = true →
      (c ++ x :: b).findIdx? p = some c.length := by
  intro c
  induction c with
  | nil => intro x b _ hx; simp [List.findIdx?_cons, hx]
  | cons y c ih =>
      intro x b hc hx
      rw [List.cons_append]
      simp [List.findIdx?_cons, hc y (List.mem_cons_self _ _),
        ih x b (fun z hz => hc z (List.mem_cons_of_mem _ hz)) hx,
        List.findIdx?_succ]

theorem findIdxQ_none {p : α → Bool} :
    ∀ (l : List α), (∀ y ∈ l, p y = false) → l.findIdx? p = none := by
  intro l
  induction l with
  | nil => intro _; rfl
  | cons y c ih =>
      intro h
      simp [List.findIdx?_cons, h y (List.mem_cons_self _ _),
        ih (fun z hz => h z (List.mem_cons_of_mem _ hz)), List.findIdx?_succ]

/-- The mention replacement rule at the label level: resolved `User.label`
for a known id, the raw id otherwise. -/
def mentionLabel (users : Users) (id : String) : String :=
  match List.lookup id users with
  | some u => u.label
  | none => id

theorem mentionRep_eq (users : Users) (id : String) :
    mentionRep users id.data = ("**@" ++ mentionLabel users id ++ "**").data := by
  unfold mentionRep mentionLabel
  simp only [String.data_append]
  cases List.lookup (String.mk id.data) users <;>
    cases List.lookup id users <;> rfl

/-- The mention pattern consumes a whole `<@ID>` token. -/
theorem tryMention_plain (users : Users) (id : String) (hne : id.data ≠ [])
    (hw : ∀ c ∈ id.data, isWordChar c = true) (rest : List Char) :
    tryMention users ('<' :: '@' :: (id.data ++ '>' :: rest)) =
      some (mentionRep users id.data, rest) := by
  have hgt : isWordChar '>' = false := rfl
  have hrun : (id.data ++ '>' :: rest).takeWhile isWordChar = id.data := by
    rw [takeWhile_append_all _ hw, List.takeWhile_cons, if_neg (by simp [hgt])]
    simp
  have hdrop : (id.data ++ '>' :: rest).dropWhile isWordChar = '>' :: rest := by
    rw [dropWhile_append_all _ hw, List.dropWhile_cons, if_neg (by simp [hgt])]
  have hEmpty : id.data.isEmpty = false := List.isEmpty_eq_false.mpr hne
  simp only [tryMention, hrun, hdrop, hEmpty, Bool.false_eq_true, if_false]

/-- The mention pattern consumes a whole `<@ID|label>` token, discarding the
label part. -/
theorem tryMention_label (users : Users) (id : String) (hne : id.data ≠ [])
    (hw : ∀ c ∈ id.data, isWordChar c = true) (lbl : List Char)
    (hlbl : ∀ c ∈ lbl, (c == '>') = false) (rest : List Char) :
    tryMention users ('<' :: '@' :: (id.data ++ '|' :: (lbl ++ '>' :: rest))) =
      some (mentionRep users id.data, rest) := by
  have hpipe : isWordChar '|' = false := rfl
  have hrun : (id.data ++ '|' :: (lbl ++ '>' :: rest)).takeWhile isWordChar
      = id.data := by
    rw [takeWhile_append_all _ hw, List.takeWhile_cons, if_neg (by simp [hpipe])]
    simp
  have hdrop : (id.data ++ '|' :: (lbl ++ '>' :: rest)).dropWhile isWordChar
      = '|' :: (lbl ++ '>' :: rest) := by
    rw [dropWhile_append_all _ hw, List.dropWhile_cons, if_neg (by simp [hpipe])]
  have hEmpty : id.data.isEmpty = false := List.isEmpty_eq_false.mpr hne
  have hfind : (lbl ++ '>' :: rest).findIdx? (· == '>') = some lbl.length :=
    findIdxQ_append_first lbl '>' rest hlbl rfl
  have hdropk : (lbl ++ '>' :: rest).drop (lbl.length + 1) = rest := by
    have : lbl ++ '>' :: rest = (lbl ++ ['>']) ++ rest := by simp
    rw [this, List.drop_left' (by simp)]
  simp only [tryMention, hrun, hdrop, hEmpty, Bool.false_eq_true, if_false,
    hfind, hdropk]

/-- A whole-token mention rewrite: `subMention` on exactly one `<@ID>`
token yields the bold resolved label. -/
theorem subMention_plain_token (users : Users) (id : String)
    (hne : id.data ≠ []) (hw : ∀ c ∈ id.data, isWordChar c = true) :
    subMention users (("<@" ++ id ++ ">").data) =
      ("**@" ++ mentionLabel users id ++ "**").data := by
  have hdata : ("<@" ++ id ++ ">").data = '<' :: '@' :: (id.data ++ '>' :: []) := by
    simp [String.data_append]
  rw [subMention, hdata, subRe]
  simp only [List.length_cons, subF,
    tryMention_plain users id hne hw []]
  cases hl : (id.data ++ '>' :: []).length with
  | zero => simp at hl
  | succ n => simp [subF, mentionRep_eq, String.data_append]

/-- A whole-token mention rewrite with a discarded `|label` part. -/
theorem subMention_label_token (users : Users) (id : String)
    (hne : id.data ≠ []) (hw : ∀ c ∈ id.data, isWordChar c = true)
    (lbl : String) (hlbl : ∀ c ∈ lbl.data, (c == '>') = false) :
    subMention users (("<@" ++ id ++ "|" ++ lbl ++ ">").data) =
      ("**@" ++ mentionLabel users id ++ "**").data := by
  have hdata : ("<@" ++ id ++ "|" ++ lbl ++ ">").data =
      '<' :: '@' :: (id.data ++ '|' :: (lbl.data ++ '>' :: [])) := by
    simp [String.data_append]
  rw [subMention, hdata, subRe]
  simp only [List.length_cons, subF,
    tryMention_label users id hne hw lbl.data hlbl []]
  cases hl : (id.data ++ '|' :: (lbl.data ++ '>' :: [])).length with
  | zero => simp at hl
  | succ n => simp [subF, mentionRep_eq, String.data_append]

/-! ### Structure of the code-span split -/

theorem splitCode_cons_other (c : Char) (rs buf : List Char) (hc : c ≠ btChar) :
    splitCode (c :: rs) buf = splitCode rs (c :: buf) := by
  unfold splitCode
  simp only [List.length_cons, splitCodeF, if_neg hc]

theorem splitCode_bt_nofind (rs buf : List Char)
    (h2 : rs.take 2 ≠ [btChar, btChar])
    (hfi : rs.findIdx? (· == btChar) = none) :
    splitCode (btChar :: rs) buf = splitCode rs (btChar :: buf) := by
  unfold splitCode
  simp only [List.length_cons, splitCodeF, if_pos rfl, if_neg h2, hfi]
  simp

theorem splitCode_bt_find (rs buf : List Char) (k : Nat)
    (h2 : rs.take 2 ≠ [btChar, btChar])
    (hfi : rs.findIdx? (· == btChar) = some k) :
    splitCode (btChar :: rs) buf =
      flushBuf buf ++ (btChar :: rs.take (k + 1)) ::
        splitCode (rs.drop (k + 1)) [] := by
  unfold splitCode
  simp only [List.length_cons, splitCodeF, if_pos rfl, if_neg h2, hfi]
  rw [splitCodeF_congr (rs.length + 1) ((rs.drop (k + 1)).length + 1)
    (rs.drop (k + 1)) [] (by simp [List.length_drop]; omega) (by omega)]
  simp

theorem splitCode_bt3_find (rs buf : List Char) (k : Nat)
    (h2 : rs.take 2 = [btChar, btChar])
    (hft : findTriple (rs.drop 2) = some k) :
    splitCode (btChar :: rs) buf =
      flushBuf buf ++
        (btChar :: btChar :: btChar :: (rs.drop 2).take (k + 3)) ::
          splitCode ((rs.drop 2).drop (k + 3)) [] := by
  unfold splitCode
  simp only [List.length_cons, splitCodeF, if_pos rfl, if_pos h2, hft]
  rw [splitCodeF_congr (rs.length + 1) (((rs.drop 2).drop (k + 3)).length + 1)
    ((rs.drop 2).drop (k + 3)) [] (by simp [List.length_drop]; omega) (by omega)]
  simp

theorem splitCode_bt3_nofind (rs buf : List Char)
    (h2 : rs.take 2 = [btChar, btChar])
    (hft : findTriple (rs.drop 2) = none) :
    splitCode (btChar :: rs) buf =
      flushBuf buf ++ [btChar :: btChar :: btChar :: rs.drop 2] := by
  unfold splitCode
  simp only [List.length_cons, splitCodeF, if_pos rfl, if_pos h2, hft]
  simp

theorem splitCode_buffer :
    ∀ (a : List Char) (rest buf : List Char), (∀ c ∈ a, c ≠ btChar) →
      splitCode (a ++ rest) buf = splitCode rest (a.reverse ++ buf) := by
  intro a
  induction a with
  | nil => intro rest buf _; simp
  | cons c a ih =>
      intro rest buf h
      rw [List.cons_append,
        splitCode_cons_other c (a ++ rest) buf (h c (List.mem_cons_self _ _)),
        ih rest (c :: buf) (fun x hx => h x (List.mem_cons_of_mem _ hx))]
      simp

theorem flushBuf_reverse (a : List Char) :
    flushBuf a.reverse = if a = [] then [] else [a] := by
  cases a with
  | nil => rfl
  | cons x t => simp [flushBuf]

theorem take_two_ne_of_head {c b : List Char}
    (hc : ∀ x ∈ c, x ≠ btChar) (hcb : c = [] → b.head? ≠ some btChar) :
    (c ++ btChar :: b).take 2 ≠ [btChar, btChar] := by
  cases c with
  | nil =>
      cases b with
      | nil => simp
      | cons y t =>
          have hy : y ≠ btChar := by
            intro hEq
            exact (hcb rfl) (by simp [hEq])
          intro hcontra
          simp [List.take_succ_cons] at hcontra
          exact hy hcontra
  | cons x c =>
      have hx := hc x (List.mem_cons_self _ _)
      intro hcontra
      simp [List.take_succ_cons] at hcontra
      exact hx hcontra.1

theorem splitCode_single_span (a c b : List Char)
    (ha : ∀ x ∈ a, x ≠ btChar) (hc : ∀ x ∈ c, x ≠ btChar)
    (hcb : c = [] → b.head? ≠ some btChar) :
    splitCode (a ++ btChar :: (c ++ btChar :: b)) [] =
      (if a = [] then [] else [a]) ++
        (btChar :: (c ++ [btChar])) :: splitCode b [] := by
  rw [splitCode_buffer a _ [] ha]
  have hfi : (c ++ btChar :: b).findIdx? (· == btChar) = some c.length :=
    findIdxQ_append_first c btChar b
      (fun y hy => beq_false_of_ne (hc y hy)) (by simp)
  rw [splitCode_bt_find _ _ c.length (take_two_ne_of_head hc hcb) hfi]
  have htake : (c ++ btChar :: b).take (c.length + 1) = c ++ [btChar] := by
    have hre : c ++ btChar :: b = (c ++ [btChar]) ++ b := by simp
    rw [hre, List.take_left' (by simp)]
  have hdrop : (c ++ btChar :: b).drop (c.length + 1) = b := by
    have hre : c ++ btChar :: b = (c ++ [btChar]) ++ b := by simp
    rw [hre, List.drop_left' (by simp)]
  rw [htake, hdrop, List.append_nil, flushBuf_reverse]

theorem findTriple_cons_eq_none {x : Char} {c : List Char}
    (h : findTriple (x :: c) = none) :
    ¬(x = btChar ∧ c.take 2 = [btChar, btChar]) ∧ findTriple c = none := by
  rw [findTriple] at h
  constructor
  · intro hcond
    rw [if_pos hcond] at h
    cases h
  · by_cases hcond : x = btChar ∧ c.take 2 = [btChar, btChar]
    · rw [if_pos hcond] at h; cases h
    · rw [if_neg hcond] at h
      exact Option.map_eq_none.mp h

theorem findTriple_boundary :
    ∀ (c : List Char), findTriple c = none → c.getLast? ≠ some btChar →
      ∀ b, findTriple (c ++ btChar :: btChar :: btChar :: b) = some c.length := by
  intro c
  induction c with
  | nil =>
      intro _ _ b
      rw [List.nil_append, findTriple,
        if_pos ⟨rfl, by simp [List.take_succ_cons]⟩]
      rfl
  | cons x c ih =>
      intro hnone hlast b
      obtain ⟨hnc, hrec⟩ := findTriple_cons_eq_none hnone
      have hlast' : c.getLast? ≠ some btChar := by
        cases c with
        | nil => simp
        | cons y t =>
            rw [List.getLast?_cons_cons] at hlast
            exact hlast
      have hcond : ¬(x = btChar ∧
          (c ++ btChar :: btChar :: btChar :: b).take 2 = [btChar, btChar]) := by
        rintro ⟨rfl, htake⟩
        cases c with
        | nil => exact hlast (by simp)
        | cons y t =>
            cases t with
            | nil =>
                simp [List.take_succ_cons] at htake
                exact hlast (by simp [htake])
            | cons z t' =>
                simp [List.take_succ_cons] at htake
                exact hnc ⟨rfl, by simp [List.take_succ_cons, htake.1, htake.2]⟩
      rw [List.cons_append, findTriple, if_neg hcond, ih hrec hlast' b]
      rfl

theorem take_exact_append (c g b : List α) (n : Nat) (hn : c.length + g.length = n) :
    ((c ++ g) ++ b).take n = c ++ g := by
  rw [List.take_left' (by simp [hn])]

theorem drop_exact_append (c g b : List α) (n : Nat) (hn : c.length + g.length = n) :
    ((c ++ g) ++ b).drop n = b := by
  rw [List.drop_left' (by simp [hn])]

theorem splitCode_triple_span (a c b : List Char)
    (ha : ∀ x ∈ a, x ≠ btChar) (hcn : findTriple c = none)
    (hcl : c.getLast? ≠ some btChar) :
    splitCode (a ++ btChar :: btChar :: btChar ::
        (c ++ btChar :: btChar :: btChar :: b)) [] =
      (if a = [] then [] else [a]) ++
        (btChar :: btChar :: btChar :: (c ++ [btChar, btChar, btChar])) ::
          splitCode b [] := by
  rw [splitCode_buffer a _ [] ha]
  have h2 : (btChar :: btChar :: (c ++ btChar :: btChar :: btChar :: b)).take 2
      = [btChar, btChar] := by
    simp [List.take_succ_cons]
  have hdrop2 : (btChar :: btChar ::
      (c ++ btChar :: btChar :: btChar :: b)).drop 2
      = c ++ btChar :: btChar :: btChar :: b := rfl
  have hft : findTriple ((btChar :: btChar ::
      (c ++ btChar :: btChar :: btChar :: b)).drop 2) = some c.length := by
    rw [hdrop2]
    exact findTriple_boundary c hcn hcl b
  rw [splitCode_bt3_find _ _ c.length h2 hft, hdrop2]
  have hre : c ++ btChar :: btChar :: btChar :: b
      = (c ++ [btChar, btChar, btChar]) ++ b := by simp
  have htake : (c ++ btChar :: btChar :: btChar :: b).take (c.length + 3)
      = c ++ [btChar, btChar, btChar] := by
    rw [hre, List.take_left' (by simp)]
  have hdrop : (c ++ btChar :: btChar :: btChar :: b).drop (c.length + 3) = b := by
    rw [hre, List.drop_left' (by simp)]
  rw [htake, hdrop, List.append_nil, flushBuf_reverse]

theorem splitCode_triple_unterminated (a c : List Char)
    (ha : ∀ x ∈ a, x ≠ btChar) (hcn : findTriple c = none) :
    splitCode (a ++ btChar :: btChar :: btChar :: c) [] =
      (if a = [] then [] else [a]) ++ [btChar :: btChar :: btChar :: c] := by
  rw [splitCode_buffer a _ [] ha]
  have h2 : (btChar :: btChar :: c).take 2 = [btChar, btChar] := by
    simp [List.take_succ_cons]
  have hdrop2 : (btChar :: btChar :: c).drop 2 = c := rfl
  rw [splitCode_bt3_nofind _ _ h2 (by rw [hdrop2]; exact hcn), hdrop2,
    List.append_nil, flushBuf_reverse]

theorem splitCode_single_unterminated (a c : List Char)
    (ha : ∀ x ∈ a, x ≠ btChar) (hc : ∀ x ∈ c, x ≠ btChar) :
    splitCode (a ++ btChar :: c) [] = flushBuf ((a ++ btChar :: c).reverse) := by
  rw [splitCode_buffer a _ [] ha]
  have h2 : c.take 2 ≠ [btChar, btChar] := by
    cases c with
    | nil => simp
    | cons x t =>
        have hx := hc x (List.mem_cons_self _ _)
        simp [List.take_succ_cons]
        intro h
        exact absurd h hx
  have hfi : c.findIdx? (· == btChar) = none :=
    findIdxQ_none c (fun y hy => beq_false_of_ne (hc y hy))
  rw [splitCode_bt_nofind _ _ h2 hfi]
  have : c = c ++ [] := by simp
  rw [this, splitCode_buffer c [] _ (by simpa using hc)]
  unfold splitCode splitCodeF
  simp [List.reverse_append]

theorem applyEmph_nil : applyEmph [] = [] := rfl

theorem convFmt_parts (a : List Char) (span : List Char) (b : List Char)
    (hspan : span.head? = some btChar)
    (hparts : splitCode (a ++ span ++ b) [] =
      (if a = [] then [] else [a]) ++ span :: splitCode b [])
    (ha : a.head? ≠ some btChar) :
    convertSlackFormatting (a ++ span ++ b) =
      applyEmph a ++ span ++ convertSlackFormatting b := by
  unfold convertSlackFormatting
  rw [hparts]
  by_cases hA : a = []
  · subst hA
    rw [if_pos rfl]
    simp only [List.nil_append, List.map_cons, List.flatten_cons, if_pos hspan,
      applyEmph_nil]
  · rw [if_neg hA]
    simp only [List.cons_append, List.nil_append, List.map_cons,
      List.flatten_cons, if_pos hspan, if_neg ha]
    simp [List.append_assoc]

/-! ## Message rendering (`format_message` header) -/

/-- The author label of `format_message`:
`user.label if user else msg.user or "unknown"`. -/
def authorOf (msg : Message) (users : Users) : String :=
  match List.lookup msg.user users with
  | some u => u.label
  | none => if msg.user = "" then "unknown" else msg.user

/-- The header line of `format_message`:
`f"{prefix}**@{author}** ({time_str}){thread_label}:"`. -/
def headerLine (msg : Message) (users : Users) (indent : Bool) : String :=
  (if indent then "  " else "") ++ "**@" ++ authorOf msg users ++ "** (" ++
    formatTimestamp msg.ts ++ ")" ++ (if indent then " [thread]" else "") ++ ":"

/-! ## Claim theorems for the markup engine and renderer -/

/-- **C3 (amended).**  Emphasis rewriting leaves a matched single-backtick
span and a matched triple-backtick span byte-for-byte unchanged (the
surroundings are rewritten independently), and an unterminated
triple-backtick delimiter copies the remainder verbatim.  But an
unterminated *single* backtick gives no such protection: the delimiter and
the remainder stay inside the surrounding plain segment and emphasis
rewriting applies across them (only a segment beginning with the dangling
backtick is copied verbatim). -/
theorem claim_c3_code_span_preservation :
    (∀ a c b : List Char, (∀ x ∈ a, x ≠ btChar) → (∀ x ∈ c, x ≠ btChar) →
      (c = [] → b.head? ≠ some btChar) →
      convertSlackFormatting (a ++ btChar :: (c ++ btChar :: b)) =
        applyEmph a ++ (btChar :: (c ++ [btChar])) ++ convertSlackFormatting b) ∧
    (∀ a c b : List Char, (∀ x ∈ a, x ≠ btChar) → findTriple c = none →
      c.getLast? ≠ some btChar →
      convertSlackFormatting (a ++ btChar :: btChar :: btChar ::
          (c ++ btChar :: btChar :: btChar :: b)) =
        applyEmph a ++
          (btChar :: btChar :: btChar :: (c ++ [btChar, btChar, btChar])) ++
          convertSlackFormatting b) ∧
    (∀ a c : List Char, (∀ x ∈ a, x ≠ btChar) → findTriple c = none →
      convertSlackFormatting (a ++ btChar :: btChar :: btChar :: c) =
        applyEmph a ++ (btChar :: btChar :: btChar :: c)) ∧
    (∀ a c : List Char, (∀ x ∈ a, x ≠ btChar) → (∀ x ∈ c, x ≠ btChar) →
      a ≠ [] →
      convertSlackFormatting (a ++ btChar :: c) = applyEmph (a ++ btChar :: c)) := by
  have headNe : ∀ (a : List Char), (∀ x ∈ a, x ≠ btChar) →
      a.head? ≠ some btChar := by
    intro a ha
    cases a with
    | nil => simp
    | cons a0 t =>
        simp only [List.head?_cons, ne_eq, Option.some.injEq]
        exact ha a0 (List.mem_cons_self _ _)
  refine ⟨?_, ?_, ?_, ?_⟩
  · intro a c b ha hc hcb
    have hre : a ++ btChar :: (c ++ btChar :: b)
        = a ++ (btChar :: (c ++ [btChar])) ++ b := by simp
    have hsplit := splitCode_single_span a c b ha hc hcb
    rw [hre] at hsplit ⊢
    exact convFmt_parts a _ b (by simp) hsplit (headNe a ha)
  · intro a c b ha hcn hcl
    have hre : a ++ btChar :: btChar :: btChar ::
        (c ++ btChar :: btChar :: btChar :: b)
        = a ++ (btChar :: btChar :: btChar :: (c ++ [btChar, btChar, btChar]))
          ++ b := by simp
    have hsplit := splitCode_triple_span a c b ha hcn hcl
    rw [hre] at hsplit ⊢
    exact convFmt_parts a _ b (by simp) hsplit (headNe a ha)
  · intro a c ha hcn
    have hre : a ++ btChar :: btChar :: btChar :: c
        = a ++ (btChar :: btChar :: btChar :: c) ++ [] := by simp
    have hsplit := splitCode_triple_unterminated a c ha hcn
    have hsplit2 : splitCode (a ++ (btChar :: btChar :: btChar :: c) ++ []) []
        = (if a = [] then [] else [a]) ++
          (btChar :: btChar :: btChar :: c) :: splitCode [] [] := by
      rw [← hre, hsplit]
      rfl
    have := convFmt_parts a (btChar :: btChar :: btChar :: c) []
      (by simp) hsplit2 (headNe a ha)
    rw [hre, this]
    simp [convertSlackFormatting, splitCode, splitCodeF, flushBuf]
  · intro a c ha hc hane
    unfold convertSlackFormatting
    rw [splitCode_single_unterminated a c ha hc, flushBuf_reverse,
      if_neg (by simp)]
    obtain ⟨a0, t, rfl⟩ := List.exists_cons_of_ne_nil hane
    have hhead : (a0 :: t ++ btChar :: c).head? ≠ some btChar := by
      simp only [List.cons_append, List.head?_cons, ne_eq, Option.some.injEq]
      exact ha a0 (List.mem_cons_self _ _)
    simp [if_neg hhead]
    exact fun h => absurd h (ha a0 (List.mem_cons_self _ _))

/-- **C3, counterexample to the claim as stated.**  After the unterminated
single backtick in `"x`*a*"` the remainder is *not* copied verbatim: the
asterisk emphasis around `a` is still rewritten to bold. -/
theorem claim_c3_counterexample :
    convert_slack_formatting "x`*a*" = "x`**a**" ∧
      ("x`**a**" : String) ≠ "x`*a*" :=
  ⟨rfl, by decide⟩

/-- **C4.**  (The source line `except ValueError, OSError:` is a Python 3
`SyntaxError`, so the shipped module cannot run; this theorem checks the
evident intended semantics the claim and the repo's own tests describe.)
Valid decimal timestamps render as UTC 12-hour clock times with no leading
zero and as `YYYY-MM-DD` dates; an unparseable timestamp falls back to the
raw string for the time and to the empty string for the date. -/
theorem claim_c4_timestamp_rendering :
    formatTimestamp "1705307400.000100" = "8:30 AM" ∧
    formatTimestamp "1705320000.000000" = "12:00 PM" ∧
    formatDate "1705307400.000100" = "2024-01-15" ∧
    formatTimestamp "not-a-number" = "not-a-number" ∧
    formatDate "bad" = "" := by
  refine ⟨?_, ?_, ?_, ?_, ?_⟩ <;> decide

/-- **C9.**  `convert_mrkdwn` rewrites a user-mention token `<@ID>` or
`<@ID|anything>` to bold `@` + the resolved label (`User.label` when the id
is in the table, the raw id otherwise); concretely, `"Hello <@U001>!"`
with U001 labeled `"alice"` becomes `"Hello **@alice**!"` and the unknown
id U999 becomes `"Hello **@U999**!"`. -/
theorem claim_c9_user_mentions :
    (∀ (users : Users) (id : String), id.data ≠ [] →
      (∀ ch ∈ id.data, isWordChar ch = true) →
      subMention users (("<@" ++ id ++ ">").data) =
        ("**@" ++ mentionLabel users id ++ "**").data) ∧
    (∀ (users : Users) (id lbl : String), id.data ≠ [] →
      (∀ ch ∈ id.data, isWordChar ch = true) →
      (∀ ch ∈ lbl.data, (ch == '>') = false) →
      subMention users (("<@" ++ id ++ "|" ++ lbl ++ ">").data) =
        ("**@" ++ mentionLabel users id ++ "**").data) ∧
    convert_mrkdwn "Hello <@U001>!"
        [("U001", ⟨"U001", "alice", "alice", "Alice Smith"⟩)]
      = "Hello **@alice**!" ∧
    convert_mrkdwn "Hello <@U999>!"
        [("U001", ⟨"U001", "alice", "alice", "Alice Smith"⟩)]
      = "Hello **@U999**!" :=
  ⟨fun users id hne hw => subMention_plain_token users id hne hw,
   fun users id lbl hne hw hlbl => subMention_label_token users id hne hw lbl hlbl,
   rfl, rfl⟩

/-- **C10 (amended).**  The author slot renders the literal `"unknown"`
exactly when the id misses the table and is empty — or happens to be the
literal string `"unknown"` itself, or a looked-up user's label is literally
`"unknown"` (the two collision cases the original claim overlooks).  An id
present in the table with all three names empty renders an empty label
(`"**@** (…)"`), and a non-empty id absent from the table renders the raw
id. -/
theorem claim_c10_unknown_author :
    (∀ (msg : Message) (users : Users),
      authorOf msg users = "unknown" ↔
        ((List.lookup msg.user users = none ∧
          (msg.user = "" ∨ msg.user = "unknown")) ∨
         (∃ u, List.lookup msg.user users = some u ∧ u.label = "unknown"))) ∧
    (∀ (msg : Message) (users : Users) (u : User),
      List.lookup msg.user users = some u → u.display_name = "" →
      u.real_name = "" → u.name = "" →
      headerLine msg users false = "**@** (" ++ formatTimestamp msg.ts ++ "):") ∧
    (∀ (msg : Message) (users : Users),
      List.lookup msg.user users = none → msg.user ≠ "" →
      authorOf msg users = msg.user) := by
  refine ⟨?_, ?_, ?_⟩
  · intro msg users
    unfold authorOf
    cases hlk : List.lookup msg.user users with
    | none =>
        show (if msg.user = "" then "unknown" else msg.user) = "unknown" ↔ _
        by_cases hu : msg.user = ""
        · rw [if_pos hu]
          exact ⟨fun _ => Or.inl ⟨rfl, Or.inl hu⟩, fun _ => rfl⟩
        · rw [if_neg hu]
          constructor
          · intro h
            exact Or.inl ⟨rfl, Or.inr h⟩
          · rintro (⟨-, h | h⟩ | ⟨u, hu2, -⟩)
            · exact absurd h hu
            · exact h
            · exact Option.noConfusion hu2
    | some u =>
        show u.label = "unknown" ↔ _
        constructor
        · intro h
          exact Or.inr ⟨u, rfl, h⟩
        · rintro (⟨h, -⟩ | ⟨u2, hu2, hlab⟩)
          · exact Option.noConfusion h
          · injection hu2 with h2
            subst h2
            exact hlab
  · intro msg users u hlk hd hr hn
    have hlab : u.label = "" := by
      unfold User.label
      rw [hd, hr, hn]
      simp
    have hauth : authorOf msg users = "" := by
      unfold authorOf
      rw [hlk]
      exact hlab
    unfold headerLine
    rw [hauth]
    apply String.ext
    simp [String.data_append]
  · intro msg users hlk hne
    unfold authorOf
    rw [hlk]
    exact if_neg hne

/-! ## Witnesses: the claim theorems applied at concrete inputs -/

/-- C1's placement statement at a concrete thread: a starter at ts 1 and a
reply at ts 2 whose `thread_ts` points back at 1. -/
theorem claim_c1_witness :
    ∃ p ∈ assemble [Message.mk "u1" "hi" "1" "1" [] [] [] "",
      Message.mk "u2" "yo" "2" "1" [] [] [] ""],
      Message.mk "u2" "yo" "2" "1" [] [] [] "" ∈ p.replies := by
  have hrep : ∀ x ∈ [Message.mk "u1" "hi" "1" "1" [] [] [] "",
      Message.mk "u2" "yo" "2" "1" [] [] [] ""], x.replies = [] := by
    intro x hx
    rcases List.mem_cons.mp hx with rfl | hx
    · rfl
    · rcases List.mem_cons.mp hx with rfl | hx
      · rfl
      · cases hx
  have h := (claim_c1_reply_placement
    [Message.mk "u1" "hi" "1" "1" [] [] [] "",
     Message.mk "u2" "yo" "2" "1" [] [] [] ""] hrep (by decide)
    (Message.mk "u2" "yo" "2" "1" [] [] [] "") rfl
    [Message.mk "u1" "hi" "1" "1" [] [] [] ""] [] rfl).1
  exact (h ⟨Message.mk "u1" "hi" "1" "1" [] [] [] "",
    List.mem_cons_self _ _, rfl, rfl⟩).1

/-- C2's sorting statement at a concrete two-message collection with
parseable timestamps. -/
theorem claim_c2_witness :
    ∃ l, sortMessages [Message.mk "u" "b" "2.5" "" [] [] [] "",
        Message.mk "u" "a" "1.5" "" [] [] [] ""] = some l ∧
      l.Perm [Message.mk "u" "b" "2.5" "" [] [] [] "",
        Message.mk "u" "a" "1.5" "" [] [] [] ""] ∧
      l.Pairwise msgLe :=
  (claim_c2_sort_fallibility _).1 (by decide)

/-- C3's matched-span statement at a concrete text `x`*a*`!`. -/
theorem claim_c3_witness :
    convertSlackFormatting (['x'] ++ btChar :: (['*', 'a', '*'] ++ btChar :: ['!']))
      = applyEmph ['x'] ++ (btChar :: (['*', 'a', '*'] ++ [btChar])) ++
        convertSlackFormatting ['!'] :=
  claim_c3_code_span_preservation.1 ['x'] ['*', 'a', '*'] ['!']
    (by decide) (by decide) (by decide)

/-- C5's users-load statement at a concrete record carrying an id. -/
theorem claim_c5_witness :
    (loadUsers [{ id := some "U1", name := some "alice",
                  real_name := none, profile_display_name := none }]).isSome :=
  (claim_c5_missing_field_defaults.1 _).mpr (by decide)

/-- C6's count statement at a concrete parent-and-reply input. -/
theorem claim_c6_witness :
    ∃ out, (loadChannelMessages
      [RawMessage.mk (some "u1") (some "hi") (some "1") (some "1") none [] [] none,
       RawMessage.mk (some "u2") (some "yo") (some "2") (some "1") none [] [] none]
      []).1 = some out ∧
      out.length + (out.map (fun p => p.replies.length)).sum = 2 := by
  have h : (loadChannelMessages
      [RawMessage.mk (some "u1") (some "hi") (some "1") (some "1") none [] [] none,
       RawMessage.mk (some "u2") (some "yo") (some "2") (some "1") none [] [] none]
      []).1 = some (assemble (([RawMessage.mk (some "u1") (some "hi") (some "1")
          (some "1") none [] [] none,
        RawMessage.mk (some "u2") (some "yo") (some "2") (some "1") none [] []
          none].map parseMessage).insertionSort msgLe)) := rfl
  exact ⟨_, h, claim_c6_count_preservation _ _ _ h⟩

/-- C7's no-overwrite statement at a concrete pre-populated table and a
message carrying a conflicting inline profile. -/
theorem claim_c7_witness :
    List.lookup "U1" ((loadChannelMessages
      [RawMessage.mk (some "U1") (some "hi") (some "1") none none [] []
        (some (RawProfile.mk (some "wrong") (some "Wrong Name") (some "Wrong")))]
      [("U1", ⟨"U1", "alice", "alice", "Alice"⟩)]).2) =
      List.lookup "U1" [("U1", ⟨"U1", "alice", "alice", "Alice"⟩)] :=
  claim_c7_backfill_no_overwrite _ _ "U1" (by decide)

/-- C8's depth-and-order statement at a concrete parent with two replies. -/
theorem claim_c8_witness :
    ∃ out, (loadChannelMessages
      [RawMessage.mk (some "u1") (some "hi") (some "1") (some "1") none [] [] none,
       RawMessage.mk (some "u2") (some "yo") (some "2") (some "1") none [] [] none,
       RawMessage.mk (some "u3") (some "hey") (some "3") (some "1") none [] [] none]
      []).1 = some out ∧
      ∀ p ∈ out, (∀ r ∈ p.replies, r.replies = []) ∧ p.replies.Pairwise msgLe := by
  have h : (loadChannelMessages
      [RawMessage.mk (some "u1") (some "hi") (some "1") (some "1") none [] [] none,
       RawMessage.mk (some "u2") (some "yo") (some "2") (some "1") none [] [] none,
       RawMessage.mk (some "u3") (some "hey") (some "3") (some "1") none [] [] none]
      []).1 = some (assemble (([RawMessage.mk (some "u1") (some "hi") (some "1")
          (some "1") none [] [] none,
        RawMessage.mk (some "u2") (some "yo") (some "2") (some "1") none [] [] none,
        RawMessage.mk (some "u3") (some "hey") (some "3") (some "1") none [] []
          none].map parseMessage).insertionSort msgLe)) := rfl
  exact ⟨_, h, claim_c8_depth_one_sorted_replies _ _ _ h⟩

/-- C9's token statement at a concrete unknown id. -/
theorem claim_c9_witness :
    subMention [] (("<@" ++ "U7" ++ ">").data) =
      ("**@" ++ mentionLabel [] "U7" ++ "**").data :=
  claim_c9_user_mentions.1 [] "U7" (by decide) (by decide)

/-- C10's raw-id statement at a concrete absent non-empty id. -/
theorem claim_c10_witness :
    authorOf (Message.mk "U9" "" "" "" [] [] [] "") [] =
      (Message.mk "U9" "" "" "" [] [] [] "").user :=
  claim_c10_unknown_author.2.2 _ [] rfl (by decide)

/-- **C10, counterexample to the claim as stated.**  A message whose raw
author id is the literal string `"unknown"`, absent from the table, renders
the literal author `"unknown"` although its id is non-empty. -/
theorem claim_c10_counterexample :
    authorOf (Message.mk "unknown" "hi" "1" "" [] [] [] "") [] = "unknown" ∧
      (Message.mk "unknown" "hi" "1" "" [] [] [] "").user ≠ "" :=
  ⟨rfl, by decide⟩

end SlackToMd
